import Mathlib

/-!
Verification of the Micromegas Unreal tracing/telemetry core
(`src/unreal/MicromegasTracing`, `src/unreal/MicromegasTelemetrySink`).

Shallow embedding conventions:
- machine bytes are `Nat` values `< 256`, buffers are `List Nat`;
- C++ pointers (object addresses, `FName` entries) are `Nat` identifiers;
- `details::WritePOD`/`ReadPOD` become explicit little-endian field
  encodings of the in-memory representation (padding bytes written as 0);
- fallible decoding returns `Option`.
-/

namespace Micromegas

/-! ## Byte-level helpers (`HeterogeneousQueue.h` `details::WritePOD` / `ReadPOD`) -/

/-- Little-endian byte encoding of a `w`-byte unsigned integer, as laid out
in memory by `details::WritePOD`. -/
def bytesOfNat : Nat → Nat → List Nat
  | 0, _ => []
  | w + 1, n => n % 256 :: bytesOfNat w (n / 256)

/-- Value of a little-endian byte list. -/
def natOfBytes : List Nat → Nat
  | [] => 0
  | b :: bs => b + 256 * natOfBytes bs

/-- `details::ReadPOD<T>` for a `w`-byte integer field: read the bytes at the
cursor and advance the cursor past them. -/
def readPOD (w : Nat) (buf : List Nat) : Option (Nat × List Nat) :=
  if w ≤ buf.length then some (natOfBytes (buf.take w), buf.drop w) else none

theorem length_bytesOfNat (w n : Nat) : (bytesOfNat w n).length = w := by
  induction w generalizing n with
  | zero => rfl
  | succ w ih => simp [bytesOfNat, ih]

theorem natOfBytes_bytesOfNat (w n : Nat) (h : n < 256 ^ w) :
    natOfBytes (bytesOfNat w n) = n := by
  induction w generalizing n with
  | zero => simp [bytesOfNat, natOfBytes, Nat.lt_one_iff.mp (by simpa using h)]
  | succ w ih =>
    have hdiv : n / 256 < 256 ^ w := by
      rw [Nat.div_lt_iff_lt_mul (by norm_num)]
      calc n < 256 ^ (w + 1) := h
        _ = 256 ^ w * 256 := by rw [Nat.pow_succ]
    simp [bytesOfNat, natOfBytes, ih _ hdiv, Nat.mod_add_div]

theorem readPOD_bytesOfNat (w n : Nat) (rest : List Nat) (h : n < 256 ^ w) :
    readPOD w (bytesOfNat w n ++ rest) = some (n, rest) := by
  have hlen : w ≤ (bytesOfNat w n ++ rest).length := by
    rw [List.length_append, length_bytesOfNat]
    exact Nat.le_add_right _ _
  have htake : (bytesOfNat w n ++ rest).take w = bytesOfNat w n := by
    have := List.take_left (bytesOfNat w n) rest
    rwa [length_bytesOfNat] at this
  have hdrop : (bytesOfNat w n ++ rest).drop w = rest := by
    have := List.drop_left (bytesOfNat w n) rest
    rwa [length_bytesOfNat] at this
  unfold readPOD
  rw [if_pos hlen, htake, hdrop, natOfBytes_bytesOfNat w n h]

/-! ## String references (`strings.h`) -/

/-- `DynamicString`: an owned string snapshot; `codec` is the `StringCodec`
byte, `data` the raw string bytes (`SizeBytes = data.length`).
Serialized by value per `Serializer<DynamicString>`. -/
structure DynamicString where
  codec : Nat
  data : List Nat
deriving DecidableEq

/-- `Serializer<DynamicString>::Write`: codec byte, 4-byte size, raw bytes. -/
def writeDynamicString (s : DynamicString) : List Nat :=
  bytesOfNat 1 s.codec ++ bytesOfNat 4 s.data.length ++ s.data

/-- `Serializer<DynamicString>::GetSize`. -/
def dynamicStringSize (s : DynamicString) : Nat :=
  1 + 4 + s.data.length

/-- `Serializer<DynamicString>::Read`: decode codec and size, then point at
the raw bytes and advance the cursor past them. -/
def readDynamicString (buf : List Nat) : Option (DynamicString × List Nat) :=
  match readPOD 1 buf with
  | none => none
  | some (codec, r1) =>
    match readPOD 4 r1 with
    | none => none
    | some (size, r2) =>
      if size ≤ r2.length then some (⟨codec, r2.take size⟩, r2.drop size)
      else none

/-- Well-formed dynamic string: fields fit their serialized widths. -/
def wfDynamicString (s : DynamicString) : Bool :=
  decide (s.codec < 256) && decide (s.data.length < 2 ^ 32)

theorem readDynamicString_write (s : DynamicString) (rest : List Nat)
    (h : wfDynamicString s = true) :
    readDynamicString (writeDynamicString s ++ rest) = some (s, rest) := by
  rcases s with ⟨codec, data⟩
  simp only [wfDynamicString, Bool.and_eq_true, decide_eq_true_eq] at h
  have hc : codec < 256 ^ 1 := by simpa using h.1
  have hl : data.length < 256 ^ 4 := by
    have : (256 : Nat) ^ 4 = 2 ^ 32 := by norm_num
    simpa [this] using h.2
  have htake : (data ++ rest).take data.length = data := List.take_left data rest
  have hdrop : (data ++ rest).drop data.length = rest := List.drop_left data rest
  simp [readDynamicString, writeDynamicString, List.append_assoc,
    readPOD_bytesOfNat 1 codec _ hc, readPOD_bytesOfNat 4 data.length _ hl,
    htake, hdrop]

/-- `StaticStringRef`: a non-owning handle; `ptr` is the address (also the
dedup identity), plus the inherited `SizeBytes` and `Codec` fields. -/
structure StaticStringRef where
  ptr : Nat
  sizeBytes : Nat
  codec : Nat
deriving DecidableEq

/-- Raw POD bytes of a `StaticStringRef` as written by `details::WritePOD`:
8-byte pointer, 4-byte size, 1-byte codec, 3 padding bytes. -/
def writeStaticStringRef (s : StaticStringRef) : List Nat :=
  bytesOfNat 8 s.ptr ++ bytesOfNat 4 s.sizeBytes ++ bytesOfNat 1 s.codec ++ [0, 0, 0]

/-- `details::ReadPOD<StaticStringRef>`: reinterpret 16 bytes at the cursor
(the 3 padding bytes are ignored). -/
def readStaticStringRef (buf : List Nat) : Option (StaticStringRef × List Nat) :=
  match readPOD 8 buf with
  | none => none
  | some (p, r1) =>
    match readPOD 4 r1 with
    | none => none
    | some (sz, r2) =>
      match readPOD 1 r2 with
      | none => none
      | some (c, r3) =>
        match readPOD 3 r3 with
        | none => none
        | some (_, r4) => some (⟨p, sz, c⟩, r4)

/-- Well-formed static string reference: fields fit their widths. -/
def wfStaticStringRef (s : StaticStringRef) : Bool :=
  decide (s.ptr < 2 ^ 64) && decide (s.sizeBytes < 2 ^ 32) && decide (s.codec < 256)

theorem readStaticStringRef_write (s : StaticStringRef) (rest : List Nat)
    (h : wfStaticStringRef s = true) :
    readStaticStringRef (writeStaticStringRef s ++ rest) = some (s, rest) := by
  rcases s with ⟨p, sz, c⟩
  simp only [wfStaticStringRef, Bool.and_eq_true, decide_eq_true_eq] at h
  have hp : p < 256 ^ 8 := by
    have : (256 : Nat) ^ 8 = 2 ^ 64 := by norm_num
    simpa [this] using h.1.1
  have hsz : sz < 256 ^ 4 := by
    have : (256 : Nat) ^ 4 = 2 ^ 32 := by norm_num
    simpa [this] using h.1.2
  have hc : c < 256 ^ 1 := by simpa using h.2
  have hpad : readPOD 3 (0 :: 0 :: 0 :: rest) = some (0, rest) := by
    simpa using readPOD_bytesOfNat 3 0 rest (by norm_num)
  simp [readStaticStringRef, writeStaticStringRef, List.append_assoc,
    readPOD_bytesOfNat 8 p _ hp, readPOD_bytesOfNat 4 sz _ hsz,
    readPOD_bytesOfNat 1 c _ hc, hpad]

/-! ## Log events (`LogEvents.h`) -/

/-- `TaggedLogString`: descriptor pointer, property-set pointer, timestamp,
dynamic message. -/
structure TaggedLogString where
  desc : Nat
  properties : Nat
  timestamp : Nat
  msg : DynamicString
deriving DecidableEq

/-- `Serializer<TaggedLogString>::GetSize`. -/
def taggedLogStringSize (e : TaggedLogString) : Nat :=
  8 + 8 + 8 + dynamicStringSize e.msg

/-- `Serializer<TaggedLogString>::Write`. -/
def writeTaggedLogString (e : TaggedLogString) : List Nat :=
  bytesOfNat 8 e.desc ++ bytesOfNat 8 e.properties ++ bytesOfNat 8 e.timestamp
    ++ writeDynamicString e.msg

/-- `Serializer<TaggedLogString>::Read`. -/
def readTaggedLogString (buf : List Nat) : Option (TaggedLogString × List Nat) :=
  match readPOD 8 buf with
  | none => none
  | some (d, r1) =>
    match readPOD 8 r1 with
    | none => none
    | some (p, r2) =>
      match readPOD 8 r2 with
      | none => none
      | some (t, r3) =>
        match readDynamicString r3 with
        | none => none
        | some (m, r4) => some (⟨d, p, t, m⟩, r4)

def wfTaggedLogString (e : TaggedLogString) : Bool :=
  decide (e.desc < 2 ^ 64) && decide (e.properties < 2 ^ 64)
    && decide (e.timestamp < 2 ^ 64) && wfDynamicString e.msg

theorem readTaggedLogString_write (e : TaggedLogString) (rest : List Nat)
    (h : wfTaggedLogString e = true) :
    readTaggedLogString (writeTaggedLogString e ++ rest) = some (e, rest) := by
  rcases e with ⟨d, p, t, m⟩
  simp only [wfTaggedLogString, Bool.and_eq_true, decide_eq_true_eq] at h
  have h64 : (256 : Nat) ^ 8 = 2 ^ 64 := by norm_num
  have hd : d < 256 ^ 8 := by rw [h64]; exact h.1.1.1
  have hp : p < 256 ^ 8 := by rw [h64]; exact h.1.1.2
  have ht : t < 256 ^ 8 := by rw [h64]; exact h.1.2
  simp [readTaggedLogString, writeTaggedLogString, List.append_assoc,
    readPOD_bytesOfNat 8 d _ hd, readPOD_bytesOfNat 8 p _ hp,
    readPOD_bytesOfNat 8 t _ ht, readDynamicString_write m rest h.2]

/-- `TaggedLogInteropEvent`: timestamp, level byte, static target string,
property-set pointer, dynamic message. -/
structure TaggedLogInteropEvent where
  timestamp : Nat
  level : Nat
  target : StaticStringRef
  properties : Nat
  msg : DynamicString
deriving DecidableEq

/-- `Serializer<TaggedLogInteropEvent>::GetSize` (target is 16 raw bytes). -/
def taggedLogInteropSize (e : TaggedLogInteropEvent) : Nat :=
  8 + 1 + 16 + 8 + dynamicStringSize e.msg

/-- `Serializer<TaggedLogInteropEvent>::Write`. -/
def writeTaggedLogInterop (e : TaggedLogInteropEvent) : List Nat :=
  bytesOfNat 8 e.timestamp ++ bytesOfNat 1 e.level ++ writeStaticStringRef e.target
    ++ bytesOfNat 8 e.properties ++ writeDynamicString e.msg

/-- `Serializer<TaggedLogInteropEvent>::Read`. -/
def readTaggedLogInterop (buf : List Nat) : Option (TaggedLogInteropEvent × List Nat) :=
  match readPOD 8 buf with
  | none => none
  | some (t, r1) =>
    match readPOD 1 r1 with
    | none => none
    | some (lv, r2) =>
      match readStaticStringRef r2 with
      | none => none
      | some (tg, r3) =>
        match readPOD 8 r3 with
        | none => none
        | some (p, r4) =>
          match readDynamicString r4 with
          | none => none
          | some (m, r5) => some (⟨t, lv, tg, p, m⟩, r5)

def wfTaggedLogInterop (e : TaggedLogInteropEvent) : Bool :=
  decide (e.timestamp < 2 ^ 64) && decide (e.level < 256)
    && wfStaticStringRef e.target && decide (e.properties < 2 ^ 64)
    && wfDynamicString e.msg

theorem readTaggedLogInterop_write (e : TaggedLogInteropEvent) (rest : List Nat)
    (h : wfTaggedLogInterop e = true) :
    readTaggedLogInterop (writeTaggedLogInterop e ++ rest) = some (e, rest) := by
  rcases e with ⟨t, lv, tg, p, m⟩
  simp only [wfTaggedLogInterop, Bool.and_eq_true, decide_eq_true_eq] at h
  have h64 : (256 : Nat) ^ 8 = 2 ^ 64 := by norm_num
  have ht : t < 256 ^ 8 := by rw [h64]; exact h.1.1.1.1
  have hlv : lv < 256 ^ 1 := by simpa using h.1.1.1.2
  have hp : p < 256 ^ 8 := by rw [h64]; exact h.1.2
  have htg := readStaticStringRef_write tg
    (bytesOfNat 8 p ++ writeDynamicString m ++ rest) h.1.1.2
  simp only [writeTaggedLogInterop, List.append_assoc] at htg ⊢
  simp [readTaggedLogInterop, readPOD_bytesOfNat 8 t _ ht,
    readPOD_bytesOfNat 1 lv _ hlv, htg, readPOD_bytesOfNat 8 p _ hp,
    readDynamicString_write m rest h.2]

/-! ## The heterogeneous log-event queue (`HeterogeneousQueue.h`)

The log-event queue instantiation (`Fwd.h`) declares, in order, the interop
log event, the tagged log event, and the static-string reference record;
the type discriminant is a type's index in that list
(`details::IndexOfType`). -/

/-- One event of the log queue's declared type list. -/
inductive LogEvent where
  | tagged (e : TaggedLogString)
  | interop (e : TaggedLogInteropEvent)
  | staticStr (s : StaticStringRef)
deriving DecidableEq

/-- Well-formed log event: all fields fit their serialized widths. -/
def wfLogEvent : LogEvent → Bool
  | .tagged e => wfTaggedLogString e
  | .interop e => wfTaggedLogInterop e
  | .staticStr s => wfStaticStringRef s

/-- Bytes appended by `HeterogeneousQueue::Push` for one event: the type
discriminant byte, a 4-byte size field for variable-sized serializers
(`TaggedLogString`, `TaggedLogInteropEvent`), then the payload.
`StaticStringRef` uses the default static-size POD serializer (no size
field). -/
def encodeLogEvent : LogEvent → List Nat
  | .interop e => 0 :: (bytesOfNat 4 (taggedLogInteropSize e) ++ writeTaggedLogInterop e)
  | .tagged e => 1 :: (bytesOfNat 4 (taggedLogStringSize e) ++ writeTaggedLogString e)
  | .staticStr s => 2 :: writeStaticStringRef s

/-- The queue: the raw byte buffer plus the event counter. -/
structure LogEventQueue where
  buffer : List Nat
  nbEvents : Nat
deriving DecidableEq

/-- `HeterogeneousQueue(bufferSize)`: starts empty. -/
def emptyLogQueue : LogEventQueue := ⟨[], 0⟩

/-- `HeterogeneousQueue::Push`. -/
def pushLogEvent (q : LogEventQueue) (e : LogEvent) : LogEventQueue :=
  ⟨q.buffer ++ encodeLogEvent e, q.nbEvents + 1⟩

/-- One step of `ForEach`: read the discriminant byte and dispatch through
`VisitValue` (which reads the 4-byte size field for variable-sized types and
then the payload). Unknown discriminants are the `check(!"type not found")`
fatal path, modelled as `none`. -/
def decodeLogEvent (buf : List Nat) : Option (LogEvent × List Nat) :=
  match buf with
  | [] => none
  | tag :: r0 =>
    if tag = 0 then
      match readPOD 4 r0 with
      | none => none
      | some (_, r1) =>
        match readTaggedLogInterop r1 with
        | none => none
        | some (e, r2) => some (.interop e, r2)
    else if tag = 1 then
      match readPOD 4 r0 with
      | none => none
      | some (_, r1) =>
        match readTaggedLogString r1 with
        | none => none
        | some (e, r2) => some (.tagged e, r2)
    else if tag = 2 then
      match readStaticStringRef r0 with
      | none => none
      | some (s, r2) => some (.staticStr s, r2)
    else none

/-- The `ForEach` decode loop (`while cursor < GetSizeBytes()`), with fuel
bounding the number of iterations; each iteration consumes at least the
discriminant byte, so `buffer.length` fuel always suffices. -/
def forEachFuel : Nat → List Nat → Option (List LogEvent)
  | _, [] => some []
  | 0, _ :: _ => none
  | fuel + 1, buf =>
    match decodeLogEvent buf with
    | none => none
    | some (e, rest) =>
      match forEachFuel fuel rest with
      | none => none
      | some evs => some (e :: evs)

/-- `HeterogeneousQueue::ForEach`: one linear decode pass from offset 0,
collecting the visited events in visit order. -/
def forEachLogQueue (q : LogEventQueue) : Option (List LogEvent) :=
  forEachFuel q.buffer.length q.buffer

/-- Reading exactly the bytes previously appended for one field recovers
their value, whatever it is (the decoder never depends on the field fitting
its width: the bytes are reinterpreted as written). -/
theorem readPOD_exact (w : Nat) (pre rest : List Nat) (h : pre.length = w) :
    readPOD w (pre ++ rest) = some (natOfBytes pre, rest) := by
  subst h
  unfold readPOD
  rw [if_pos (by simp), List.take_left, List.drop_left]

/-- Concatenated push encoding of a sequence of events. -/
def encodeLogEvents : List LogEvent → List Nat
  | [] => []
  | e :: evs => encodeLogEvent e ++ encodeLogEvents evs

theorem foldl_pushLogEvent (evs : List LogEvent) (q : LogEventQueue) :
    evs.foldl pushLogEvent q =
      ⟨q.buffer ++ encodeLogEvents evs, q.nbEvents + evs.length⟩ := by
  induction evs generalizing q with
  | nil => simp [encodeLogEvents]
  | cons e evs ih =>
    simp [List.foldl_cons, ih, pushLogEvent, encodeLogEvents, List.append_assoc,
      Nat.add_assoc, Nat.add_comm 1 evs.length]

theorem decodeLogEvent_encode (e : LogEvent) (rest : List Nat)
    (h : wfLogEvent e = true) :
    decodeLogEvent (encodeLogEvent e ++ rest) = some (e, rest) := by
  cases e with
  | tagged e =>
    have hsz := readPOD_exact 4 (bytesOfNat 4 (taggedLogStringSize e))
      (writeTaggedLogString e ++ rest) (length_bytesOfNat _ _)
    simp only [wfLogEvent] at h
    simp [encodeLogEvent, decodeLogEvent, List.append_assoc, hsz,
      readTaggedLogString_write e rest h]
  | interop e =>
    have hsz := readPOD_exact 4 (bytesOfNat 4 (taggedLogInteropSize e))
      (writeTaggedLogInterop e ++ rest) (length_bytesOfNat _ _)
    simp only [wfLogEvent] at h
    simp [encodeLogEvent, decodeLogEvent, List.append_assoc, hsz,
      readTaggedLogInterop_write e rest h]
  | staticStr s =>
    simp only [wfLogEvent] at h
    simp [encodeLogEvent, decodeLogEvent, readStaticStringRef_write s rest h]

theorem encodeLogEvent_length_pos (e : LogEvent) : 0 < (encodeLogEvent e).length := by
  cases e <;> simp [encodeLogEvent]

theorem forEachFuel_encode (evs : List LogEvent) (fuel : Nat)
    (hwf : evs.all wfLogEvent = true)
    (hfuel : (encodeLogEvents evs).length ≤ fuel) :
    forEachFuel fuel (encodeLogEvents evs) = some evs := by
  induction evs generalizing fuel with
  | nil => cases fuel <;> simp [encodeLogEvents, forEachFuel]
  | cons e evs ih =>
    simp only [List.all_cons, Bool.and_eq_true] at hwf
    rcases hwf with ⟨hwfe, hwfrest⟩
    have hne : 0 < (encodeLogEvent e).length := encodeLogEvent_length_pos e
    have hlen : (encodeLogEvents (e :: evs)).length =
        (encodeLogEvent e).length + (encodeLogEvents evs).length := by
      simp [encodeLogEvents]
    cases fuel with
    | zero => omega
    | succ f =>
      have hf : (encodeLogEvents evs).length ≤ f := by omega
      obtain ⟨b, bs, hb⟩ : ∃ b bs, encodeLogEvent e = b :: bs := by
        cases hcons : encodeLogEvent e with
        | nil => rw [hcons] at hne; simp at hne
        | cons b bs => exact ⟨b, bs, rfl⟩
      have hdec := decodeLogEvent_encode e (encodeLogEvents evs) hwfe
      calc forEachFuel (f + 1) (encodeLogEvents (e :: evs))
          = forEachFuel (f + 1) (encodeLogEvent e ++ encodeLogEvents evs) := by
            simp [encodeLogEvents]
        _ = some (e :: evs) := by
            rw [hb] at hdec ⊢
            simp only [List.cons_append] at hdec
            simp only [List.cons_append, forEachFuel, List.append_eq, hdec,
              ih f hwfrest hf]

/-- C1: for every sequence of events of the log queue's declared types,
`ForEach` performs one linear decode pass from offset 0 and replays exactly
the pushed events — same types, same field values, same order — and the
event counter equals the number of pushes (round-trip of the tagged
serialization format). -/
theorem heterogeneousQueue_roundTrip (evs : List LogEvent)
    (h : evs.all wfLogEvent = true) :
    forEachLogQueue (evs.foldl pushLogEvent emptyLogQueue) = some evs ∧
    (evs.foldl pushLogEvent emptyLogQueue).nbEvents = evs.length := by
  have hfold := foldl_pushLogEvent evs emptyLogQueue
  rw [hfold]
  refine ⟨?_, by simp [emptyLogQueue]⟩
  simpa [forEachLogQueue, emptyLogQueue] using
    forEachFuel_encode evs (encodeLogEvents evs).length h (le_refl _)

/-- Witness for C1 at a concrete event sequence (one of each declared type). -/
theorem heterogeneousQueue_roundTrip_witness :
    ([LogEvent.tagged ⟨1, 2, 3, ⟨0, [104, 105]⟩⟩,
      LogEvent.interop ⟨4, 2, ⟨10, 5, 1⟩, 6, ⟨1, [65]⟩⟩,
      LogEvent.staticStr ⟨10, 5, 1⟩,
      LogEvent.tagged ⟨1, 2, 7, ⟨0, []⟩⟩].all wfLogEvent = true) ∧
    forEachLogQueue
      ([LogEvent.tagged ⟨1, 2, 3, ⟨0, [104, 105]⟩⟩,
        LogEvent.interop ⟨4, 2, ⟨10, 5, 1⟩, 6, ⟨1, [65]⟩⟩,
        LogEvent.staticStr ⟨10, 5, 1⟩,
        LogEvent.tagged ⟨1, 2, 7, ⟨0, []⟩⟩].foldl pushLogEvent emptyLogQueue)
      = some [LogEvent.tagged ⟨1, 2, 3, ⟨0, [104, 105]⟩⟩,
        LogEvent.interop ⟨4, 2, ⟨10, 5, 1⟩, 6, ⟨1, [65]⟩⟩,
        LogEvent.staticStr ⟨10, 5, 1⟩,
        LogEvent.tagged ⟨1, 2, 7, ⟨0, []⟩⟩] :=
  ⟨by decide, (heterogeneousQueue_roundTrip _ (by decide)).1⟩

/-! ## Event blocks and streams (`EventBlock.h`, `EventStream.h`)

For the rotation protocol only the counters matter: a block is its
`object_offset`, its event count, its serialized byte size, its capacity and
its closed flag (`End` time stamped). Event payloads are abstracted to their
serialized sizes. -/

structure BlockModel where
  offset : Nat
  nbEvents : Nat
  sizeBytes : Nat
  capacity : Nat
  closed : Bool
deriving DecidableEq

/-- `EventBlock(streamId, begin, bufferSize, offset)`: fresh empty block. -/
def mkBlock (bufferSize offset : Nat) : BlockModel :=
  ⟨offset, 0, 0, bufferSize, false⟩

/-- `EventBlock::IsEmpty`: no events pushed. -/
def blockIsEmpty (b : BlockModel) : Bool :=
  b.nbEvents == 0

/-- A push into the block's queue: one more event, `sz` more bytes. -/
def blockPush (b : BlockModel) (sz : Nat) : BlockModel :=
  { b with nbEvents := b.nbEvents + 1, sizeBytes := b.sizeBytes + sz }

/-- `EventBlock::Close`: stamp the end time. -/
def blockClose (b : BlockModel) : BlockModel :=
  { b with closed := true }

/-- `EventStreamImpl<EventBlockT, BUFFER_PADDING>`: current block plus the
cached fullness threshold. -/
structure StreamModel where
  current : BlockModel
  fullThreshold : Nat
deriving DecidableEq

/-- The stream constructor: installs the block and sets
`FullThreshold = capacity - BUFFER_PADDING`. -/
def mkStream (pad : Nat) (block : BlockModel) : StreamModel :=
  ⟨block, block.capacity - pad⟩

/-- `EventStreamImpl::IsFull`: current serialized size has reached the
threshold. -/
def streamIsFull (st : StreamModel) : Bool :=
  st.fullThreshold ≤ st.current.sizeBytes

/-- `EventStreamImpl::MarkFull`: drive the threshold to zero. -/
def streamMarkFull (st : StreamModel) : StreamModel :=
  { st with fullThreshold := 0 }

/-- `EventStreamImpl::SwapBlocks`: install the new block, recompute the
threshold from its capacity, return the old block. -/
def swapBlocks (st : StreamModel) (pad : Nat) (newBlock : BlockModel) :
    StreamModel × BlockModel :=
  (⟨newBlock, newBlock.capacity - pad⟩, st.current)

/-- Push into the stream's current block (`GetCurrentBlock().GetEvents().Push`). -/
def streamPush (st : StreamModel) (sz : Nat) : StreamModel :=
  { st with current := blockPush st.current sz }

/-- `Dispatch::FlushLogStreamImpl` / `FlushMetricStreamImpl` /
`FlushThreadStream`, state part: if the current block is empty, return
without rotating; otherwise install a fresh block at
`offset = old offset + old event count`, close the old block and emit it. -/
def flushStreamImpl (bufferSize pad : Nat) (st : StreamModel) :
    StreamModel × Option BlockModel :=
  if blockIsEmpty st.current then (st, none)
  else
    let newOffset := st.current.offset + st.current.nbEvents
    let swapped := swapBlocks st pad (mkBlock bufferSize newOffset)
    (swapped.1, some (blockClose swapped.2))

/-- `Dispatch::QueueLogEntry` / `QueueMetric`, state part: push, then flush
only if the stream now reports full. -/
def queueEntry (bufferSize pad : Nat) (st : StreamModel) (sz : Nat) :
    StreamModel × Option BlockModel :=
  let st1 := streamPush st sz
  if streamIsFull st1 then flushStreamImpl bufferSize pad st1 else (st1, none)

/-- The operations a stream undergoes: event pushes through the queue APIs,
explicit flushes (`FlushLogStream` / periodic tick), and `MarkFull`. -/
inductive StreamOp where
  | queue (sz : Nat)
  | flush
  | markFull
deriving DecidableEq

def streamStep (bufferSize pad : Nat) (st : StreamModel) :
    StreamOp → StreamModel × Option BlockModel
  | .queue sz => queueEntry bufferSize pad st sz
  | .flush => flushStreamImpl bufferSize pad st
  | .markFull => (streamMarkFull st, none)

/-- Run a sequence of stream operations, collecting the blocks handed to the
sink in emission order. -/
def streamRun (bufferSize pad : Nat) (st : StreamModel) :
    List StreamOp → StreamModel × List BlockModel
  | [] => (st, [])
  | op :: ops =>
    let stepped := streamStep bufferSize pad st op
    let rest := streamRun bufferSize pad stepped.1 ops
    (rest.1, (match stepped.2 with | none => [] | some b => [b]) ++ rest.2)

/-- Offsets of a block sequence are contiguous starting from `o`: each block
starts where the previous one ended. -/
def contiguousFrom : Nat → List BlockModel → Prop
  | _, [] => True
  | o, b :: rest => b.offset = o ∧ contiguousFrom (b.offset + b.nbEvents) rest

/-- Running offset after a block sequence starting from `o`. -/
def endOffset : Nat → List BlockModel → Nat
  | o, [] => o
  | _, b :: rest => endOffset (b.offset + b.nbEvents) rest

theorem flushStreamImpl_empty (bufferSize pad : Nat) (st : StreamModel)
    (h : blockIsEmpty st.current = true) :
    flushStreamImpl bufferSize pad st = (st, none) := by
  simp [flushStreamImpl, h]

theorem flushStreamImpl_nonempty (bufferSize pad : Nat) (st : StreamModel)
    (h : blockIsEmpty st.current = false) :
    flushStreamImpl bufferSize pad st =
      (⟨mkBlock bufferSize (st.current.offset + st.current.nbEvents),
          bufferSize - pad⟩,
        some (blockClose st.current)) := by
  simp [flushStreamImpl, h, swapBlocks, mkBlock]

/-- One step either emits nothing and keeps the current offset, or emits a
closed, non-empty block starting at the current offset and advances the
offset by exactly that block's event count. -/
theorem streamStep_offset (bufferSize pad : Nat) (st : StreamModel) (op : StreamOp) :
    ((streamStep bufferSize pad st op).2 = none ∧
      (streamStep bufferSize pad st op).1.current.offset = st.current.offset) ∨
    (∃ b, (streamStep bufferSize pad st op).2 = some b ∧
      b.offset = st.current.offset ∧ 0 < b.nbEvents ∧ b.closed = true ∧
      (streamStep bufferSize pad st op).1.current.offset = b.offset + b.nbEvents) := by
  cases op with
  | queue sz =>
    by_cases hfull : streamIsFull (streamPush st sz) = true
    · right
      have hne : blockIsEmpty (streamPush st sz).current = false := by
        simp [blockIsEmpty, streamPush, blockPush]
      refine ⟨blockClose (blockPush st.current sz), ?_⟩
      simp only [streamStep, queueEntry]
      rw [if_pos hfull, flushStreamImpl_nonempty bufferSize pad _ hne]
      simp [streamPush, blockPush, blockClose, mkBlock]
    · left
      simp only [streamStep, queueEntry]
      rw [if_neg hfull]
      simp [streamPush, blockPush]
  | flush =>
    by_cases hempty : blockIsEmpty st.current = true
    · left
      simp [streamStep, flushStreamImpl_empty bufferSize pad st hempty]
    · right
      refine ⟨blockClose st.current, ?_⟩
      have hpos : 0 < st.current.nbEvents := by
        simp only [blockIsEmpty, beq_iff_eq] at hempty
        omega
      simp [streamStep,
        flushStreamImpl_nonempty bufferSize pad st (by simpa using hempty),
        blockClose, mkBlock, hpos]
  | markFull =>
    left
    simp [streamStep, streamMarkFull]

/-- Over any operation sequence, the emitted blocks are offset-contiguous
starting at the stream's current offset, the final offset continues the
chain, and every emitted block is closed and non-empty. -/
theorem streamRun_contiguous (bufferSize pad : Nat) (ops : List StreamOp)
    (st : StreamModel) :
    contiguousFrom st.current.offset (streamRun bufferSize pad st ops).2 ∧
    (streamRun bufferSize pad st ops).1.current.offset =
      endOffset st.current.offset (streamRun bufferSize pad st ops).2 ∧
    ∀ b ∈ (streamRun bufferSize pad st ops).2, 0 < b.nbEvents ∧ b.closed = true := by
  induction ops generalizing st with
  | nil => simp [streamRun, contiguousFrom, endOffset]
  | cons op ops ih =>
    rcases streamStep_offset bufferSize pad st op with
      ⟨hnone, hoff⟩ | ⟨b, hsome, hboff, hbpos, hbclosed, hoff⟩
    · have ihs := ih (streamStep bufferSize pad st op).1
      rw [hoff] at ihs
      simp only [streamRun, hnone]
      simpa using ihs
    · have ihs := ih (streamStep bufferSize pad st op).1
      rw [hoff] at ihs
      simp only [streamRun, hsome, List.singleton_append]
      refine ⟨⟨hboff, by rw [hboff] at ihs ⊢; exact ihs.1⟩, ?_, ?_⟩
      · simpa [endOffset] using ihs.2.1
      · intro c hc
        rcases List.mem_cons.mp hc with rfl | hc
        · exact ⟨hbpos, hbclosed⟩
        · exact ihs.2.2 c hc

/-- C3: in every rotation sequence of a single stream (queue-driven flushes,
explicit flushes, forced `MarkFull` rotations), the blocks handed to the
sink have contiguous, monotonically advancing offsets — each block starts at
the previous block's offset plus its event count, starting from 0 — every
emitted block is closed and non-empty, and flushing a stream whose current
block is empty is a no-op: no swap, no close, no block handed to the sink,
no offset change. -/
theorem offset_contiguity (bufferSize pad : Nat) (ops : List StreamOp) :
    contiguousFrom 0
      (streamRun bufferSize pad (mkStream pad (mkBlock bufferSize 0)) ops).2 ∧
    (∀ b ∈ (streamRun bufferSize pad (mkStream pad (mkBlock bufferSize 0)) ops).2,
      0 < b.nbEvents ∧ b.closed = true) ∧
    ∀ st : StreamModel, blockIsEmpty st.current = true →
      flushStreamImpl bufferSize pad st = (st, none) := by
  have h := streamRun_contiguous bufferSize pad ops (mkStream pad (mkBlock bufferSize 0))
  exact ⟨h.1, h.2.2, fun st hst => flushStreamImpl_empty bufferSize pad st hst⟩

/-- Witness for C3: a concrete run, and the empty-flush no-op at a concrete
empty stream. -/
theorem offset_contiguity_witness :
    blockIsEmpty (mkStream 10 (mkBlock 100 0)).current = true ∧
    flushStreamImpl 100 10 (mkStream 10 (mkBlock 100 0)) =
      (mkStream 10 (mkBlock 100 0), none) :=
  ⟨by decide,
    (offset_contiguity 100 10 [.queue 5, .flush, .markFull, .flush]).2.2
      (mkStream 10 (mkBlock 100 0)) (by decide)⟩

/-- C5: with capacity `C` and padding `P` (threshold as the constructor and
`SwapBlocks` set it), `IsFull` is true exactly when the serialized size has
reached `C − P`; a queue push that keeps the size strictly below the
threshold never rotates; a push that reaches or crosses the threshold is
still completed — the event is counted in the block that is then flushed —
because fullness is checked after the push; and `MarkFull` forces `IsFull`
unconditionally. -/
theorem fullness_threshold (cap pad : Nat) :
    (∀ st : StreamModel, st.fullThreshold = cap - pad →
      (streamIsFull st = true ↔ cap - pad ≤ st.current.sizeBytes)) ∧
    (∀ bufferSize sz : Nat, ∀ st : StreamModel,
      st.current.sizeBytes + sz < st.fullThreshold →
      queueEntry bufferSize pad st sz = (streamPush st sz, none)) ∧
    (∀ bufferSize sz : Nat, ∀ st : StreamModel,
      st.fullThreshold ≤ st.current.sizeBytes + sz →
      (queueEntry bufferSize pad st sz).2 =
        some (blockClose (blockPush st.current sz))) ∧
    (∀ st : StreamModel, streamIsFull (streamMarkFull st) = true) := by
  refine ⟨?_, ?_, ?_, ?_⟩
  · intro st hst
    simp [streamIsFull, hst]
  · intro bufferSize sz st hlt
    have hnotfull : streamIsFull (streamPush st sz) = false := by
      simp only [streamIsFull, streamPush, blockPush, decide_eq_false_iff_not]
      omega
    simp [queueEntry, hnotfull]
  · intro bufferSize sz st hge
    have hfull : streamIsFull (streamPush st sz) = true := by
      simp only [streamIsFull, streamPush, blockPush, decide_eq_true_eq]
      omega
    have hne : blockIsEmpty (streamPush st sz).current = false := by
      simp [blockIsEmpty, streamPush, blockPush]
    simp only [queueEntry]
    rw [if_pos hfull, flushStreamImpl_nonempty bufferSize pad _ hne]
    simp [streamPush]
  · intro st
    simp [streamIsFull, streamMarkFull]

/-- Witness for C5 at concrete streams (threshold 90 = 100 − 10). -/
theorem fullness_threshold_witness :
    ((⟨⟨0, 3, 89, 100, false⟩, 90⟩ : StreamModel).fullThreshold = 100 - 10 ∧
      (streamIsFull ⟨⟨0, 3, 89, 100, false⟩, 90⟩ = true ↔
        100 - 10 ≤ (⟨⟨0, 3, 89, 100, false⟩, 90⟩ : StreamModel).current.sizeBytes)) ∧
    ((⟨⟨0, 3, 80, 100, false⟩, 90⟩ : StreamModel).current.sizeBytes + 4 < 90 ∧
      queueEntry 100 10 ⟨⟨0, 3, 80, 100, false⟩, 90⟩ 4 =
        (streamPush ⟨⟨0, 3, 80, 100, false⟩, 90⟩ 4, none)) ∧
    (90 ≤ (⟨⟨0, 3, 80, 100, false⟩, 90⟩ : StreamModel).current.sizeBytes + 15 ∧
      (queueEntry 100 10 ⟨⟨0, 3, 80, 100, false⟩, 90⟩ 15).2 =
        some (blockClose (blockPush ⟨0, 3, 80, 100, false⟩ 15))) :=
  ⟨⟨by decide, (fullness_threshold 100 10).1 _ (by decide)⟩,
    ⟨by decide, (fullness_threshold 100 10).2.1 100 4 _ (by decide)⟩,
    ⟨by decide, (fullness_threshold 100 10).2.2.1 100 15 _ (by decide)⟩⟩

/-! ## Lock discipline of the flush path (`Dispatch.cpp`)

`FlushLogStreamImpl` and `FlushMetricStreamImpl` are entered with the
stream's mutex held; the trace below lists their observable actions in
program order for each branch. -/

inductive StreamKind where
  | log
  | metric
deriving DecidableEq

inductive FlushAction where
  | checkEmpty
  | swap
  | close
  | unlockMutex
  | sinkProcessBlock (k : StreamKind)
deriving DecidableEq

/-- Action trace of `Dispatch::FlushLogStreamImpl` (and the textually
identical `FlushMetricStreamImpl`): check emptiness under the lock; if empty
unlock and return; otherwise swap, close, unlock, and only then hand the
sealed block to `Sink->OnProcessLogBlock` / `OnProcessMetricBlock`. -/
def flushImplTrace (k : StreamKind) (st : StreamModel) : List FlushAction :=
  if blockIsEmpty st.current then [.checkEmpty, .unlockMutex]
  else [.checkEmpty, .swap, .close, .unlockMutex, .sinkProcessBlock k]

/-- C8: in every flush of the log or metric stream, the mutex is held across
the fullness/emptiness check, the block swap and the close (none of these
occur at or after the unlock), the mutex is always released, and the sink
hand-off never occurs while the mutex is held (it is absent from the locked
prefix, i.e. strictly after the unlock). -/
theorem flush_lock_discipline (k : StreamKind) (st : StreamModel) :
    FlushAction.unlockMutex ∈ flushImplTrace k st ∧
    FlushAction.sinkProcessBlock k ∉
      (flushImplTrace k st).takeWhile (fun a => a ≠ FlushAction.unlockMutex) ∧
    FlushAction.checkEmpty ∉
      (flushImplTrace k st).dropWhile (fun a => a ≠ FlushAction.unlockMutex) ∧
    FlushAction.swap ∉
      (flushImplTrace k st).dropWhile (fun a => a ≠ FlushAction.unlockMutex) ∧
    FlushAction.close ∉
      (flushImplTrace k st).dropWhile (fun a => a ≠ FlushAction.unlockMutex) := by
  unfold flushImplTrace
  cases k <;> split <;> refine ⟨by decide, by decide, by decide, by decide, by decide⟩

/-! ## Property set store (`PropertySetStore.cpp`, `PropertySet.h`)

`TContext = TMap<FName, FName>`: `FName`s are `Nat` identifiers, a context
is its entry list in insertion order (a `TMap` has unique keys, captured by
`wfCtx`). A `PropertySet*` is the index of the interned context in the
store's list (distinct indices are distinct pointers). -/

/-- A `TContext`: key-value entries in insertion order. -/
abbrev Ctx := List (Nat × Nat)

/-- `TMap::Find`: value of the first entry with the given key. -/
def ctxFind : Ctx → Nat → Option Nat
  | [], _ => none
  | (k0, v0) :: rest, k => if k0 = k then some v0 else ctxFind rest k

/-- `TMap::OrderIndependentCompareEqual`: same entry count and every entry
of the left map found with an equal value in the right map. -/
def oiEqual (a b : Ctx) : Bool :=
  a.length == b.length && a.all fun kv => ctxFind b kv.1 == some kv.2

/-- A well-formed `TMap` image: keys are unique. -/
def wfCtx (c : Ctx) : Prop :=
  (c.map Prod.fst).Nodup

instance (c : Ctx) : Decidable (wfCtx c) :=
  List.nodupDecidable (c.map Prod.fst)

theorem ctxFind_eq_some_of_mem (c : Ctx) (hc : wfCtx c) (k v : Nat)
    (hm : (k, v) ∈ c) : ctxFind c k = some v := by
  induction c with
  | nil => simp at hm
  | cons kv rest ih =>
    rcases kv with ⟨k0, v0⟩
    rcases List.mem_cons.mp hm with heq | hrest
    · rw [Prod.mk.injEq] at heq
      simp [ctxFind, heq.1, heq.2]
    · have hk : k0 ≠ k := by
        intro hkk
        subst hkk
        have : k0 ∈ rest.map Prod.fst := List.mem_map.mpr ⟨(k0, v), hrest, rfl⟩
        exact (List.nodup_cons.mp hc).1 this
      have hrec := ih (List.nodup_cons.mp hc).2 hrest
      simp [ctxFind, hk, hrec]

theorem mem_of_ctxFind_eq_some (c : Ctx) (k v : Nat)
    (h : ctxFind c k = some v) : (k, v) ∈ c := by
  induction c with
  | nil => simp [ctxFind] at h
  | cons kv rest ih =>
    rcases kv with ⟨k0, v0⟩
    by_cases hk : k0 = k
    · subst hk
      have hv : v0 = v := by simpa [ctxFind] using h
      subst hv
      exact List.mem_cons_self _ _
    · simp only [ctxFind, if_neg hk] at h
      exact List.mem_cons_of_mem _ (ih h)

theorem ctxFind_eq_none_iff (c : Ctx) (k : Nat) :
    ctxFind c k = none ↔ k ∉ c.map Prod.fst := by
  induction c with
  | nil => simp [ctxFind]
  | cons kv rest ih =>
    rcases kv with ⟨k0, v0⟩
    by_cases hk : k0 = k
    · subst hk
      simp [ctxFind]
    · simp only [ctxFind, if_neg hk, List.map_cons, List.mem_cons, ih]
      constructor
      · intro h hor
        rcases hor with h1 | h2
        · exact hk h1.symm
        · exact h h2
      · intro h hmem
        exact h (Or.inr hmem)

theorem length_eq_of_find_eq (a b : Ctx) (ha : wfCtx a) (hb : wfCtx b)
    (h : ∀ k, ctxFind a k = ctxFind b k) : a.length = b.length := by
  have hmem : ∀ k, k ∈ a.map Prod.fst ↔ k ∈ b.map Prod.fst := by
    intro k
    rw [← not_iff_not, ← ctxFind_eq_none_iff, ← ctxFind_eq_none_iff, h k]
  have hfs : (a.map Prod.fst).toFinset = (b.map Prod.fst).toFinset := by
    ext k
    simp [List.mem_toFinset, hmem k]
  have hca := List.toFinset_card_of_nodup ha
  have hcb := List.toFinset_card_of_nodup hb
  have : (a.map Prod.fst).length = (b.map Prod.fst).length := by
    rw [← hca, ← hcb, hfs]
  simpa using this

theorem oiEqual_iff_find (a b : Ctx) (ha : wfCtx a) (hb : wfCtx b) :
    oiEqual a b = true ↔ ∀ k, ctxFind a k = ctxFind b k := by
  constructor
  · intro h k
    simp only [oiEqual, Bool.and_eq_true, beq_iff_eq, List.all_eq_true] at h
    rcases h with ⟨hlen, hall⟩
    have hsub : ∀ x, x ∈ a.map Prod.fst → x ∈ b.map Prod.fst := by
      intro x hx
      rcases List.mem_map.mp hx with ⟨⟨k1, v1⟩, hkv, hfst⟩
      have := hall _ hkv
      simp only [beq_iff_eq] at this
      subst hfst
      have hmb := mem_of_ctxFind_eq_some b k1 v1 this
      exact List.mem_map.mpr ⟨(k1, v1), hmb, rfl⟩
    cases hfa : ctxFind a k with
    | some v =>
      have hmem := mem_of_ctxFind_eq_some a k v hfa
      have := hall _ hmem
      simp only [beq_iff_eq] at this
      exact this.symm
    | none =>
      have hka : k ∉ a.map Prod.fst := (ctxFind_eq_none_iff a k).mp hfa
      have hkeys : (a.map Prod.fst).toFinset = (b.map Prod.fst).toFinset := by
        have hsubf : (a.map Prod.fst).toFinset ⊆ (b.map Prod.fst).toFinset := by
          intro x hx
          exact List.mem_toFinset.mpr (hsub x (List.mem_toFinset.mp hx))
        refine Finset.eq_of_subset_of_card_le hsubf ?_
        rw [List.toFinset_card_of_nodup ha, List.toFinset_card_of_nodup hb]
        simp [hlen]
      have hkb : k ∉ b.map Prod.fst := by
        intro hkb
        exact hka (by
          have : k ∈ (b.map Prod.fst).toFinset := List.mem_toFinset.mpr hkb
          rw [← hkeys] at this
          exact List.mem_toFinset.mp this)
      exact ((ctxFind_eq_none_iff b k).mpr hkb).symm
  · intro h
    simp only [oiEqual, Bool.and_eq_true, beq_iff_eq, List.all_eq_true]
    refine ⟨length_eq_of_find_eq a b ha hb h, ?_⟩
    intro kv hkv
    have := ctxFind_eq_some_of_mem a ha kv.1 kv.2 (by simpa using hkv)
    simp [← h kv.1, this]

theorem oiEqual_refl (a : Ctx) (ha : wfCtx a) : oiEqual a a = true :=
  (oiEqual_iff_find a a ha ha).mpr fun _ => rfl

theorem oiEqual_symm (a b : Ctx) (ha : wfCtx a) (hb : wfCtx b)
    (h : oiEqual a b = true) : oiEqual b a = true :=
  (oiEqual_iff_find b a hb ha).mpr fun k => ((oiEqual_iff_find a b ha hb).mp h k).symm

theorem oiEqual_trans (a b c : Ctx) (ha : wfCtx a) (hb : wfCtx b) (hc : wfCtx c)
    (hab : oiEqual a b = true) (hbc : oiEqual b c = true) : oiEqual a c = true :=
  (oiEqual_iff_find a c ha hc).mpr fun k =>
    ((oiEqual_iff_find a b ha hb).mp hab k).trans
      ((oiEqual_iff_find b c hb hc).mp hbc k)

/-- The interning table: the contexts of the allocated `PropertySet`s, in
allocation order; a `PropertySet*` is an index into this list. -/
structure StoreModel where
  sets : List Ctx
deriving DecidableEq

/-- The engine-side hashing interface behind `SetStoreKeyFuncs::GetKeyHash`:
`GetTypeHash` on an `FName` and `HashCombine` are engine externals (runtime
name-table state, bit mixing) kept abstract, and `bucketOf` abstracts
`TSet`'s assignment of a stored hash to a bucket (the runtime bucket
count). -/
structure HashModel where
  typeHash : Nat → Nat
  hashCombine : Nat → Nat → Nat
  bucketOf : Nat → Nat

/-- `HashProperties`: fold `HashCombine` over the context in its iteration
(insertion) order — `Hash = HashCombine(GetTypeHash(Key), Hash)` then
`Hash = HashCombine(GetTypeHash(Value), Hash)` per entry, from `Hash = 0`. -/
def hashProperties (hm : HashModel) (c : Ctx) : Nat :=
  c.foldl
    (fun acc kv => hm.hashCombine (hm.typeHash kv.2)
      (hm.hashCombine (hm.typeHash kv.1) acc)) 0

/-- `TSet::FindId` with `SetStoreKeyFuncs`: the probe's hash
(`GetKeyHash` = `HashProperties`) selects a bucket, and only elements whose
stored hash falls in that same bucket are compared with `Matches` =
`OrderIndependentCompareEqual`; the first such match is returned. An
interned context in a different bucket is never compared, however it would
compare under `Matches`. -/
def storeFind (hm : HashModel) : List Ctx → Ctx → Option Nat
  | [], _ => none
  | e :: rest, c =>
    if (hm.bucketOf (hashProperties hm e) == hm.bucketOf (hashProperties hm c))
        && oiEqual e c then
      some 0
    else
      match storeFind hm rest c with
      | none => none
      | some i => some (i + 1)

/-- `PropertySetStore::Get`: return the pointer found through the bucketed
lookup, or allocate a new permanent `PropertySet` holding the probe
context. -/
def storeGet (hm : HashModel) (s : StoreModel) (c : Ctx) : Nat × StoreModel :=
  match storeFind hm s.sets c with
  | some i => (i, s)
  | none => (s.sets.length, ⟨s.sets ++ [c]⟩)

/-- C4: the claimed canonicalization fails on the code. `SetStoreKeyFuncs`
pairs the order-independent `Matches` with the insertion-order-dependent
hash `HashProperties`, violating the `TSet` hash/equality contract:
`Get({a:1,b:2})` followed by `Get({b:2,a:1})` hashes the reordered probe
differently, and whenever the two hashes fall in different buckets (the
generic case for a non-commutative `HashCombine`) the stored set is never
compared and a duplicate `PropertySet` is allocated — the two calls return
different pointers for contexts that hold the same key-value pairs. -/
theorem propertySetStore_hash_mismatch (hm : HashModel)
    (hdiff : hm.bucketOf (hashProperties hm [(1, 10), (2, 20)]) ≠
      hm.bucketOf (hashProperties hm [(2, 20), (1, 10)])) :
    oiEqual [(1, 10), (2, 20)] [(2, 20), (1, 10)] = true ∧
    (storeGet hm ⟨[]⟩ [(1, 10), (2, 20)]).1 ≠
      (storeGet hm (storeGet hm ⟨[]⟩ [(1, 10), (2, 20)]).2 [(2, 20), (1, 10)]).1 := by
  refine ⟨by decide, ?_⟩
  have hget1 : storeGet hm ⟨[]⟩ [(1, 10), (2, 20)] =
      (0, ⟨[[(1, 10), (2, 20)]]⟩) := rfl
  have hbeq : (hm.bucketOf (hashProperties hm [(1, 10), (2, 20)]) ==
      hm.bucketOf (hashProperties hm [(2, 20), (1, 10)])) = false :=
    beq_eq_false_iff_ne.mpr hdiff
  have hfind : storeFind hm [[(1, 10), (2, 20)]] [(2, 20), (1, 10)] = none := by
    rw [storeFind, hbeq]
    rfl
  rw [hget1]
  show (0 : Nat) ≠ (storeGet hm ⟨[[(1, 10), (2, 20)]]⟩ [(2, 20), (1, 10)]).1
  rw [storeGet, hfind]
  decide

/-- Witness for C4: a concrete instantiation of the engine hash interface
(identity type hash, the non-commutative combine `a + 3*c`, identity
buckets) on which the reordered probe hashes into a different bucket and the
two `Get` calls return different pointers. -/
theorem propertySetStore_hash_mismatch_witness :
    ((⟨fun n => n, fun a c => a + 3 * c, fun n => n⟩ : HashModel).bucketOf
        (hashProperties ⟨fun n => n, fun a c => a + 3 * c, fun n => n⟩
          [(1, 10), (2, 20)]) ≠
      (⟨fun n => n, fun a c => a + 3 * c, fun n => n⟩ : HashModel).bucketOf
        (hashProperties ⟨fun n => n, fun a c => a + 3 * c, fun n => n⟩
          [(2, 20), (1, 10)])) ∧
    (storeGet ⟨fun n => n, fun a c => a + 3 * c, fun n => n⟩ ⟨[]⟩
        [(1, 10), (2, 20)]).1 ≠
      (storeGet ⟨fun n => n, fun a c => a + 3 * c, fun n => n⟩
        (storeGet ⟨fun n => n, fun a c => a + 3 * c, fun n => n⟩ ⟨[]⟩
          [(1, 10), (2, 20)]).2 [(2, 20), (1, 10)]).1 :=
  ⟨by decide,
    (propertySetStore_hash_mismatch
      ⟨fun n => n, fun a c => a + 3 * c, fun n => n⟩ (by decide)).2⟩

/-! ## Default context (`DefaultContext.cpp`) -/

/-- `DefaultContext` state: the mutable key-value context, the cached
canonical `PropertySet` pointer, and the backing store. -/
structure ContextModel where
  ctx : Ctx
  current : Nat
  store : StoreModel
deriving DecidableEq

/-- `DefaultContext::UpdatePropertySet`: re-resolve the context through the
store (under the engine's hash interface) and cache the resulting pointer. -/
def updatePropertySet (hm : HashModel) (m : ContextModel) : ContextModel :=
  let got := storeGet hm m.store m.ctx
  { m with current := got.1, store := got.2 }

/-- In-place value update of the first entry with the given key
(`*StoredValue = Value`). -/
def ctxReplace : Ctx → Nat → Nat → Ctx
  | [], _, _ => []
  | (k0, v0) :: rest, k, v =>
    if k0 = k then (k0, v) :: rest else (k0, v0) :: ctxReplace rest k v

/-- `DefaultContext::Set`: find the key; if the stored value equals the new
one, return early; otherwise update or add the entry, then
`UpdatePropertySet`. The boolean records whether the store was consulted. -/
def contextSet (hm : HashModel) (m : ContextModel) (k v : Nat) :
    ContextModel × Bool :=
  match ctxFind m.ctx k with
  | some v0 =>
    if v0 = v then (m, false)
    else (updatePropertySet hm { m with ctx := ctxReplace m.ctx k v }, true)
  | none => (updatePropertySet hm { m with ctx := m.ctx ++ [(k, v)] }, true)

theorem ctxFind_ctxReplace (c : Ctx) (k v v0 : Nat)
    (h : ctxFind c k = some v0) : ctxFind (ctxReplace c k v) k = some v := by
  induction c with
  | nil => simp [ctxFind] at h
  | cons kv rest ih =>
    rcases kv with ⟨k1, v1⟩
    by_cases hk : k1 = k
    · simp [ctxReplace, ctxFind, hk]
    · simp only [ctxFind, if_neg hk] at h
      simp [ctxReplace, ctxFind, hk, ih h]

theorem ctxFind_append_new (c : Ctx) (k v : Nat)
    (h : ctxFind c k = none) : ctxFind (c ++ [(k, v)]) k = some v := by
  induction c with
  | nil => simp [ctxFind]
  | cons kv rest ih =>
    rcases kv with ⟨k1, v1⟩
    by_cases hk : k1 = k
    · simp [ctxFind, hk] at h
    · simp only [ctxFind, if_neg hk] at h
      simp [ctxFind, hk, ih h]

theorem contextSet_find (hm : HashModel) (m : ContextModel) (k v : Nat) :
    ctxFind (contextSet hm m k v).1.ctx k = some v := by
  cases hf : ctxFind m.ctx k with
  | some v0 =>
    by_cases hv : v0 = v
    · subst hv
      simp [contextSet, hf]
    · simp [contextSet, hf, hv, updatePropertySet, ctxFind_ctxReplace m.ctx k v v0 hf]
  | none =>
    simp [contextSet, hf, updatePropertySet, ctxFind_append_new m.ctx k v hf]

/-- C9: `DefaultContext::Set` is idempotent and frame-preserving on a
no-change update. When the context already maps the key to an equal value
the call returns with the context, the cached pointer and the store all
unchanged and without consulting the store; consequently a second `Set`
with the same pair right after any first one is such a no-op, so two
identical `Set` calls are observationally one. -/
theorem defaultContext_set_idempotent (hm : HashModel) (m : ContextModel) (k v : Nat) :
    (ctxFind m.ctx k = some v → contextSet hm m k v = (m, false)) ∧
    contextSet hm (contextSet hm m k v).1 k v = ((contextSet hm m k v).1, false) := by
  have hearly : ∀ m1 : ContextModel, ctxFind m1.ctx k = some v →
      contextSet hm m1 k v = (m1, false) := by
    intro m1 h1
    simp [contextSet, h1]
  exact ⟨hearly m, hearly _ (contextSet_find hm m k v)⟩

/-- Witness for C9: setting an already-present pair is the identity. -/
theorem defaultContext_set_idempotent_witness :
    ctxFind (⟨[(1, 2)], 0, ⟨[[(1, 2)]]⟩⟩ : ContextModel).ctx 1 = some 2 ∧
    contextSet ⟨fun n => n, fun a c => a + 3 * c, fun n => n⟩
        ⟨[(1, 2)], 0, ⟨[[(1, 2)]]⟩⟩ 1 2 =
      ((⟨[(1, 2)], 0, ⟨[[(1, 2)]]⟩⟩ : ContextModel), false) :=
  ⟨by decide,
    (defaultContext_set_idempotent ⟨fun n => n, fun a c => a + 3 * c, fun n => n⟩
      ⟨[(1, 2)], 0, ⟨[[(1, 2)]]⟩⟩ 1 2).1 (by decide)⟩

/-! ## Dependency extraction (`LogDependencies.h`, `InsertBlockRequest.cpp`)

The extractor (`ExtractLogDependencies`) is the visitor run by
`ExtractBlockDependencies` over a sealed block's event queue. Identities are
raw addresses in a single `TSet<const void*>`; distinct live C++ objects of
different kinds occupy distinct addresses, so the set is modelled with a
kind-tagged identity. The referenced objects themselves (a descriptor's
target/message/file strings, a property set's context) live behind pointers
and are modelled as a heap indexed by the pointer. -/

/-- Identity of a referenced object (an address in the `Ids` seen-set). -/
inductive Identity where
  | str (id : Nat)
  | meta (id : Nat)
  | pset (id : Nat)
deriving DecidableEq

/-- A record pushed into the dependencies queue: `StaticStringDependency`,
`LogMetadataDependency` or `PropertySetDependency` (keyed by the identity of
the object it describes). -/
inductive DepRecord where
  | staticString (id : Nat)
  | logMetadata (id : Nat)
  | propertySet (id : Nat)
deriving DecidableEq

def depId : DepRecord → Identity
  | .staticString i => .str i
  | .logMetadata i => .meta i
  | .propertySet i => .pset i

def recOf : Identity → DepRecord
  | .str i => .staticString i
  | .meta i => .logMetadata i
  | .pset i => .propertySet i

/-- The referenced object graph: the string fields of each `LogMetadata`
and the key/value `FName` entries of each `PropertySet` (an `FName`'s
`StaticStringRef` identity is its name-table entry). -/
structure Heap where
  metaTarget : Nat → Nat
  metaMsg : Nat → Nat
  metaFile : Nat → Nat
  psetCtx : Nat → List (Nat × Nat)

/-- String identities referenced by a `LogMetadata` (visited in this order:
`Target`, `Msg`, `File`). -/
def metaRefs (h : Heap) (m : Nat) : List Nat :=
  [h.metaTarget m, h.metaMsg m, h.metaFile m]

/-- String identities referenced by a `PropertySet` (each context entry's
key then value, in context order). -/
def flattenPairs : List (Nat × Nat) → List Nat
  | [] => []
  | kv :: rest => kv.1 :: kv.2 :: flattenPairs rest

def psetRefs (h : Heap) (p : Nat) : List Nat :=
  flattenPairs (h.psetCtx p)

/-- Extractor state: the `Ids` seen-set and the `Dependencies` queue. -/
structure ExtractState where
  seen : List Identity
  deps : List DepRecord
deriving DecidableEq

/-- `operator()(const StaticStringRef&)`: add to the seen-set; push a
dependency record only if it was absent. -/
def visitString (st : ExtractState) (a : Nat) : ExtractState :=
  if Identity.str a ∈ st.seen then st
  else ⟨st.seen ++ [.str a], st.deps ++ [.staticString a]⟩

def visitStrings (st : ExtractState) (ids : List Nat) : ExtractState :=
  ids.foldl visitString st

/-- `operator()(const LogMetadata*)`: mark seen; if newly seen, visit the
target, message and file strings, then push the metadata record. -/
def visitLogMetadata (h : Heap) (st : ExtractState) (m : Nat) : ExtractState :=
  if Identity.meta m ∈ st.seen then st
  else
    let st1 : ExtractState := ⟨st.seen ++ [.meta m], st.deps⟩
    let st2 := visitStrings st1 (metaRefs h m)
    ⟨st2.seen, st2.deps ++ [.logMetadata m]⟩

/-- `operator()(const PropertySet*)`: mark seen; if newly seen, visit each
context entry's key and value strings, then push the property-set record. -/
def visitPropertySet (h : Heap) (st : ExtractState) (p : Nat) : ExtractState :=
  if Identity.pset p ∈ st.seen then st
  else
    let st1 : ExtractState := ⟨st.seen ++ [.pset p], st.deps⟩
    let st2 := (h.psetCtx p).foldl
      (fun acc kv => visitString (visitString acc kv.1) kv.2) st1
    ⟨st2.seen, st2.deps ++ [.propertySet p]⟩

/-- The per-event overloads: a `TaggedLogString` visits its descriptor then
its property set; a `TaggedLogInteropEvent` its target string then its
property set; a bare `StaticStringRef` record just the string. -/
def visitEvent (h : Heap) (st : ExtractState) : LogEvent → ExtractState
  | .tagged e => visitPropertySet h (visitLogMetadata h st e.desc) e.properties
  | .interop e => visitPropertySet h (visitString st e.target.ptr) e.properties
  | .staticStr s => visitString st s.ptr

/-- `ExtractBlockDependencies`: run the visitor over the block's events in
push order, starting from an empty seen-set and an empty queue. -/
def extractLogDependencies (h : Heap) (evs : List LogEvent) : ExtractState :=
  evs.foldl (visitEvent h) ⟨[], []⟩

/-! Reference streams: the memoization-free expansion of every reference in
visitation order (for a descriptor or property set: its strings, then the
object itself). The extractor's output is the first-occurrence dedup of this
stream. -/

def metaStream (h : Heap) (m : Nat) : List Identity :=
  (metaRefs h m).map .str ++ [.meta m]

def psetStream (h : Heap) (p : Nat) : List Identity :=
  (psetRefs h p).map .str ++ [.pset p]

def eventStream (h : Heap) : LogEvent → List Identity
  | .tagged e => metaStream h e.desc ++ psetStream h e.properties
  | .interop e => .str e.target.ptr :: psetStream h e.properties
  | .staticStr s => [.str s.ptr]

def blockStream (h : Heap) : List LogEvent → List Identity
  | [] => []
  | e :: rest => eventStream h e ++ blockStream h rest

/-- First-occurrence dedup of a stream against an initial seen list. -/
def dedupFirst (seen : List Identity) : List Identity → List Identity
  | [] => []
  | x :: xs => if x ∈ seen then dedupFirst seen xs else x :: dedupFirst (x :: seen) xs

theorem mem_dedupFirst (seen s : List Identity) (x : Identity) :
    x ∈ dedupFirst seen s ↔ x ∉ seen ∧ x ∈ s := by
  induction s generalizing seen with
  | nil => simp [dedupFirst]
  | cons a xs ih =>
    by_cases ha : a ∈ seen
    · rw [dedupFirst, if_pos ha, ih]
      constructor
      · rintro ⟨hx, hxs⟩
        exact ⟨hx, List.mem_cons_of_mem _ hxs⟩
      · rintro ⟨hx, hxs⟩
        rcases List.mem_cons.mp hxs with rfl | hxs
        · exact absurd ha hx
        · exact ⟨hx, hxs⟩
    · rw [dedupFirst, if_neg ha]
      constructor
      · intro hx
        rcases List.mem_cons.mp hx with rfl | hx
        · exact ⟨ha, List.mem_cons_self _ _⟩
        · rcases (ih (a :: seen)).mp hx with ⟨hxn, hxs⟩
          exact ⟨fun hc => hxn (List.mem_cons_of_mem _ hc), List.mem_cons_of_mem _ hxs⟩
      · rintro ⟨hxn, hxs⟩
        rcases List.mem_cons.mp hxs with rfl | hxs
        · exact List.mem_cons_self _ _
        · by_cases hxa : x = a
          · subst hxa
            exact List.mem_cons_self _ _
          · exact List.mem_cons_of_mem _ ((ih (a :: seen)).mpr
              ⟨fun hc => (List.mem_cons.mp hc).elim hxa hxn, hxs⟩)

theorem dedupFirst_congr (seen1 seen2 s : List Identity)
    (h : ∀ x, x ∈ seen1 ↔ x ∈ seen2) :
    dedupFirst seen1 s = dedupFirst seen2 s := by
  induction s generalizing seen1 seen2 with
  | nil => rfl
  | cons a xs ih =>
    by_cases ha : a ∈ seen1
    · rw [dedupFirst, if_pos ha, dedupFirst, if_pos ((h a).mp ha)]
      exact ih seen1 seen2 h
    · rw [dedupFirst, if_neg ha, dedupFirst, if_neg (fun hc => ha ((h a).mpr hc))]
      refine congrArg _ (ih (a :: seen1) (a :: seen2) ?_)
      intro x
      simp [List.mem_cons, h x]

theorem dedupFirst_append (seen a b : List Identity) :
    dedupFirst seen (a ++ b) =
      dedupFirst seen a ++ dedupFirst (seen ++ a) b := by
  induction a generalizing seen with
  | nil => simp [dedupFirst]
  | cons x xs ih =>
    by_cases hx : x ∈ seen
    · rw [List.cons_append, dedupFirst, if_pos hx, dedupFirst, if_pos hx, ih]
      refine congrArg _ (dedupFirst_congr _ _ b ?_)
      intro y
      simp only [List.mem_append, List.mem_cons]
      constructor
      · rintro (hy | hy)
        · exact Or.inl hy
        · exact Or.inr (Or.inr hy)
      · rintro (hy | hy | hy)
        · exact Or.inl hy
        · subst hy; exact Or.inl hx
        · exact Or.inr hy
    · rw [List.cons_append, dedupFirst, if_neg hx, dedupFirst, if_neg hx, ih,
        List.cons_append]
      refine congrArg _ (congrArg _ (dedupFirst_congr _ _ b ?_))
      intro y
      simp only [List.mem_append, List.mem_cons]
      tauto

theorem dedupFirst_nil_of_subset (seen s : List Identity)
    (h : ∀ x ∈ s, x ∈ seen) : dedupFirst seen s = [] := by
  induction s with
  | nil => rfl
  | cons a xs ih =>
    rw [dedupFirst, if_pos (h a (List.mem_cons_self _ _))]
    exact ih fun x hx => h x (List.mem_cons_of_mem _ hx)

theorem dedupFirst_nodup (seen s : List Identity) : (dedupFirst seen s).Nodup := by
  induction s generalizing seen with
  | nil => simp [dedupFirst]
  | cons a xs ih =>
    by_cases ha : a ∈ seen
    · rw [dedupFirst, if_pos ha]
      exact ih seen
    · rw [dedupFirst, if_neg ha]
      refine List.nodup_cons.mpr ⟨?_, ih (a :: seen)⟩
      intro hc
      exact ((mem_dedupFirst _ _ _).mp hc).1 (List.mem_cons_self _ _)

theorem dedupFirst_congr_on (seen1 seen2 s : List Identity)
    (h : ∀ x ∈ s, (x ∈ seen1 ↔ x ∈ seen2)) :
    dedupFirst seen1 s = dedupFirst seen2 s := by
  induction s generalizing seen1 seen2 with
  | nil => rfl
  | cons a xs ih =>
    have ha := h a (List.mem_cons_self _ _)
    by_cases h1 : a ∈ seen1
    · rw [dedupFirst, if_pos h1, dedupFirst, if_pos (ha.mp h1)]
      exact ih seen1 seen2 fun x hx => h x (List.mem_cons_of_mem _ hx)
    · rw [dedupFirst, if_neg h1, dedupFirst, if_neg (fun hc => h1 (ha.mpr hc))]
      refine congrArg _ (ih (a :: seen1) (a :: seen2) ?_)
      intro x hx
      simp [List.mem_cons, h x (List.mem_cons_of_mem _ hx)]

/-- Closure of a seen-set: every descriptor or property set that has been
marked seen already has all its referenced strings marked seen. This is the
extractor's state invariant between visitor calls. -/
def closedSeen (h : Heap) (seen : List Identity) : Prop :=
  (∀ m, Identity.meta m ∈ seen → ∀ s ∈ metaRefs h m, Identity.str s ∈ seen) ∧
  (∀ p, Identity.pset p ∈ seen → ∀ s ∈ psetRefs h p, Identity.str s ∈ seen)

theorem visitStrings_spec (ids : List Nat) (st : ExtractState) :
    (visitStrings st ids).deps =
      st.deps ++ (dedupFirst st.seen (ids.map Identity.str)).map recOf ∧
    (∀ x, x ∈ (visitStrings st ids).seen ↔
      x ∈ st.seen ∨ x ∈ ids.map Identity.str) := by
  induction ids generalizing st with
  | nil =>
    refine ⟨by simp [visitStrings, dedupFirst], ?_⟩
    intro x
    simp [visitStrings]
  | cons a ids ih =>
    have hstep : visitStrings st (a :: ids) = visitStrings (visitString st a) ids := rfl
    by_cases ha : Identity.str a ∈ st.seen
    · have hv : visitString st a = st := by simp [visitString, ha]
      rcases ih st with ⟨ihd, ihm⟩
      rw [hstep, hv]
      refine ⟨?_, ?_⟩
      · rw [ihd, List.map_cons, dedupFirst, if_pos ha]
      · intro x
        rw [ihm x, List.map_cons, List.mem_cons]
        constructor
        · rintro (hx | hx)
          · exact Or.inl hx
          · exact Or.inr (Or.inr hx)
        · rintro (hx | rfl | hx)
          · exact Or.inl hx
          · exact Or.inl ha
          · exact Or.inr hx
    · have hv : visitString st a =
          ⟨st.seen ++ [.str a], st.deps ++ [.staticString a]⟩ := by
        simp [visitString, ha]
      rcases ih ⟨st.seen ++ [.str a], st.deps ++ [.staticString a]⟩ with ⟨ihd, ihm⟩
      rw [hstep, hv]
      have hseeneq : ∀ x ∈ ids.map Identity.str,
          (x ∈ st.seen ++ [Identity.str a] ↔ x ∈ Identity.str a :: st.seen) := by
        intro x _
        simp only [List.mem_append, List.mem_singleton, List.mem_cons]
        tauto
      refine ⟨?_, ?_⟩
      · rw [ihd]
        rw [List.map_cons, dedupFirst, if_neg ha, List.map_cons]
        rw [dedupFirst_congr_on _ _ _ hseeneq]
        simp [recOf, List.append_assoc]
      · intro x
        rw [ihm x]
        simp only [List.mem_append, List.mem_singleton, List.map_cons, List.mem_cons]
        tauto

theorem closedSeen_extend_meta (h : Heap) (seen1 seen2 : List Identity) (m : Nat)
    (hc : closedSeen h seen1)
    (hmem : ∀ x, x ∈ seen2 ↔ x ∈ seen1 ∨ x ∈ metaStream h m) :
    closedSeen h seen2 := by
  constructor
  · intro m2 hm2 s hs
    rcases (hmem _).mp hm2 with hold | hstream
    · exact (hmem _).mpr (Or.inl (hc.1 m2 hold s hs))
    · have hm2m : m2 = m := by
        rcases List.mem_append.mp hstream with hx | hx
        · rcases List.mem_map.mp hx with ⟨t, _, ht⟩
          exact absurd ht (by simp)
        · have := List.mem_singleton.mp hx
          simpa using this
      subst hm2m
      exact (hmem _).mpr (Or.inr
        (List.mem_append.mpr (Or.inl (List.mem_map.mpr ⟨s, hs, rfl⟩))))
  · intro p hp s hs
    rcases (hmem _).mp hp with hold | hstream
    · exact (hmem _).mpr (Or.inl (hc.2 p hold s hs))
    · exfalso
      rcases List.mem_append.mp hstream with hx | hx
      · rcases List.mem_map.mp hx with ⟨t, _, ht⟩
        exact absurd ht (by simp)
      · have := List.mem_singleton.mp hx
        simp at this

theorem closedSeen_extend_pset (h : Heap) (seen1 seen2 : List Identity) (p : Nat)
    (hc : closedSeen h seen1)
    (hmem : ∀ x, x ∈ seen2 ↔ x ∈ seen1 ∨ x ∈ psetStream h p) :
    closedSeen h seen2 := by
  constructor
  · intro m2 hm2 s hs
    rcases (hmem _).mp hm2 with hold | hstream
    · exact (hmem _).mpr (Or.inl (hc.1 m2 hold s hs))
    · exfalso
      rcases List.mem_append.mp hstream with hx | hx
      · rcases List.mem_map.mp hx with ⟨t, _, ht⟩
        exact absurd ht (by simp)
      · have := List.mem_singleton.mp hx
        simp at this
  · intro p2 hp2 s hs
    rcases (hmem _).mp hp2 with hold | hstream
    · exact (hmem _).mpr (Or.inl (hc.2 p2 hold s hs))
    · have hpp : p2 = p := by
        rcases List.mem_append.mp hstream with hx | hx
        · rcases List.mem_map.mp hx with ⟨t, _, ht⟩
          exact absurd ht (by simp)
        · have := List.mem_singleton.mp hx
          simpa using this
      subst hpp
      exact (hmem _).mpr (Or.inr
        (List.mem_append.mpr (Or.inl (List.mem_map.mpr ⟨s, hs, rfl⟩))))

theorem closedSeen_extend_str (h : Heap) (seen1 seen2 : List Identity) (a : Nat)
    (hc : closedSeen h seen1)
    (hmem : ∀ x, x ∈ seen2 ↔ x ∈ seen1 ∨ x = Identity.str a) :
    closedSeen h seen2 := by
  constructor
  · intro m2 hm2 s hs
    rcases (hmem _).mp hm2 with hold | habs
    · exact (hmem _).mpr (Or.inl (hc.1 m2 hold s hs))
    · exact absurd habs (by simp)
  · intro p2 hp2 s hs
    rcases (hmem _).mp hp2 with hold | habs
    · exact (hmem _).mpr (Or.inl (hc.2 p2 hold s hs))
    · exact absurd habs (by simp)

theorem foldl_pairs_eq_visitStrings (l : List (Nat × Nat)) (st : ExtractState) :
    l.foldl (fun acc kv => visitString (visitString acc kv.1) kv.2) st =
      visitStrings st (flattenPairs l) := by
  induction l generalizing st with
  | nil => rfl
  | cons kv rest ih =>
    simp only [List.foldl_cons, flattenPairs]
    exact ih (visitString (visitString st kv.1) kv.2)

theorem visitLogMetadata_spec (h : Heap) (st : ExtractState) (m : Nat)
    (hc : closedSeen h st.seen) :
    (visitLogMetadata h st m).deps =
      st.deps ++ (dedupFirst st.seen (metaStream h m)).map recOf ∧
    (∀ x, x ∈ (visitLogMetadata h st m).seen ↔ x ∈ st.seen ∨ x ∈ metaStream h m) ∧
    closedSeen h (visitLogMetadata h st m).seen := by
  by_cases hm : Identity.meta m ∈ st.seen
  · have hv : visitLogMetadata h st m = st := by
      simp [visitLogMetadata, hm]
    have hsub : ∀ x ∈ metaStream h m, x ∈ st.seen := by
      intro x hx
      rcases List.mem_append.mp hx with hx | hx
      · rcases List.mem_map.mp hx with ⟨s, hs, rfl⟩
        exact hc.1 m hm s hs
      · rcases List.mem_singleton.mp hx with rfl
        exact hm
    rw [hv]
    refine ⟨by simp [dedupFirst_nil_of_subset _ _ hsub], ?_, hc⟩
    intro x
    constructor
    · exact Or.inl
    · rintro (hx | hx)
      · exact hx
      · exact hsub x hx
  · have hv : visitLogMetadata h st m =
        ⟨(visitStrings ⟨st.seen ++ [.meta m], st.deps⟩ (metaRefs h m)).seen,
          (visitStrings ⟨st.seen ++ [.meta m], st.deps⟩ (metaRefs h m)).deps
            ++ [.logMetadata m]⟩ := by
      simp only [visitLogMetadata]
      rw [if_neg hm]
    rcases visitStrings_spec (metaRefs h m)
      ⟨st.seen ++ [.meta m], st.deps⟩ with ⟨hd, hmems⟩
    have hcongr : dedupFirst (st.seen ++ [Identity.meta m])
        ((metaRefs h m).map Identity.str) =
        dedupFirst st.seen ((metaRefs h m).map Identity.str) := by
      refine dedupFirst_congr_on _ _ _ ?_
      intro x hx
      rcases List.mem_map.mp hx with ⟨s, _, rfl⟩
      simp [List.mem_append]
    have hmnot : Identity.meta m ∉
        st.seen ++ (metaRefs h m).map Identity.str := by
      intro hcm
      rcases List.mem_append.mp hcm with hcm | hcm
      · exact hm hcm
      · rcases List.mem_map.mp hcm with ⟨s, _, hs⟩
        exact absurd hs (by simp)
    have hmemiff : ∀ x, x ∈ (visitLogMetadata h st m).seen ↔
        x ∈ st.seen ∨ x ∈ metaStream h m := by
      intro x
      rw [hv]
      show x ∈ (visitStrings ⟨st.seen ++ [.meta m], st.deps⟩ (metaRefs h m)).seen ↔ _
      rw [hmems x]
      show x ∈ st.seen ++ [Identity.meta m] ∨ _ ↔ _
      rw [metaStream]
      simp only [List.mem_append, List.mem_singleton, List.mem_cons]
      tauto
    refine ⟨?_, hmemiff, closedSeen_extend_meta h st.seen _ m hc hmemiff⟩
    rw [hv]
    show (visitStrings ⟨st.seen ++ [.meta m], st.deps⟩ (metaRefs h m)).deps
        ++ [.logMetadata m] = _
    rw [hd]
    show st.deps ++ _ ++ [DepRecord.logMetadata m] = _
    rw [hcongr, metaStream, dedupFirst_append]
    rw [dedupFirst, if_neg hmnot]
    simp [dedupFirst, recOf, List.append_assoc]

theorem visitPropertySet_spec (h : Heap) (st : ExtractState) (p : Nat)
    (hc : closedSeen h st.seen) :
    (visitPropertySet h st p).deps =
      st.deps ++ (dedupFirst st.seen (psetStream h p)).map recOf ∧
    (∀ x, x ∈ (visitPropertySet h st p).seen ↔ x ∈ st.seen ∨ x ∈ psetStream h p) ∧
    closedSeen h (visitPropertySet h st p).seen := by
  by_cases hp : Identity.pset p ∈ st.seen
  · have hv : visitPropertySet h st p = st := by
      simp [visitPropertySet, hp]
    have hsub : ∀ x ∈ psetStream h p, x ∈ st.seen := by
      intro x hx
      rcases List.mem_append.mp hx with hx | hx
      · rcases List.mem_map.mp hx with ⟨s, hs, rfl⟩
        exact hc.2 p hp s hs
      · rcases List.mem_singleton.mp hx with rfl
        exact hp
    rw [hv]
    refine ⟨by simp [dedupFirst_nil_of_subset _ _ hsub], ?_, hc⟩
    intro x
    constructor
    · exact Or.inl
    · rintro (hx | hx)
      · exact hx
      · exact hsub x hx
  · have hv : visitPropertySet h st p =
        ⟨(visitStrings ⟨st.seen ++ [.pset p], st.deps⟩ (psetRefs h p)).seen,
          (visitStrings ⟨st.seen ++ [.pset p], st.deps⟩ (psetRefs h p)).deps
            ++ [.propertySet p]⟩ := by
      simp only [visitPropertySet]
      rw [if_neg hp, foldl_pairs_eq_visitStrings]
      rfl
    rcases visitStrings_spec (psetRefs h p)
      ⟨st.seen ++ [.pset p], st.deps⟩ with ⟨hd, hmems⟩
    have hcongr : dedupFirst (st.seen ++ [Identity.pset p])
        ((psetRefs h p).map Identity.str) =
        dedupFirst st.seen ((psetRefs h p).map Identity.str) := by
      refine dedupFirst_congr_on _ _ _ ?_
      intro x hx
      rcases List.mem_map.mp hx with ⟨s, _, rfl⟩
      simp [List.mem_append]
    have hpnot : Identity.pset p ∉
        st.seen ++ (psetRefs h p).map Identity.str := by
      intro hcp
      rcases List.mem_append.mp hcp with hcp | hcp
      · exact hp hcp
      · rcases List.mem_map.mp hcp with ⟨s, _, hs⟩
        exact absurd hs (by simp)
    have hmemiff : ∀ x, x ∈ (visitPropertySet h st p).seen ↔
        x ∈ st.seen ∨ x ∈ psetStream h p := by
      intro x
      rw [hv]
      show x ∈ (visitStrings ⟨st.seen ++ [.pset p], st.deps⟩ (psetRefs h p)).seen ↔ _
      rw [hmems x]
      show x ∈ st.seen ++ [Identity.pset p] ∨ _ ↔ _
      rw [psetStream]
      simp only [List.mem_append, List.mem_singleton, List.mem_cons]
      tauto
    refine ⟨?_, hmemiff, closedSeen_extend_pset h st.seen _ p hc hmemiff⟩
    rw [hv]
    show (visitStrings ⟨st.seen ++ [.pset p], st.deps⟩ (psetRefs h p)).deps
        ++ [.propertySet p] = _
    rw [hd]
    show st.deps ++ _ ++ [DepRecord.propertySet p] = _
    rw [hcongr, psetStream, dedupFirst_append]
    rw [dedupFirst, if_neg hpnot]
    simp [dedupFirst, recOf, List.append_assoc]

theorem visitEvent_spec (h : Heap) (st : ExtractState) (e : LogEvent)
    (hc : closedSeen h st.seen) :
    (visitEvent h st e).deps =
      st.deps ++ (dedupFirst st.seen (eventStream h e)).map recOf ∧
    (∀ x, x ∈ (visitEvent h st e).seen ↔ x ∈ st.seen ∨ x ∈ eventStream h e) ∧
    closedSeen h (visitEvent h st e).seen := by
  cases e with
  | tagged e =>
    rcases visitLogMetadata_spec h st e.desc hc with ⟨hd1, hm1, hc1⟩
    rcases visitPropertySet_spec h (visitLogMetadata h st e.desc) e.properties hc1
      with ⟨hd2, hm2, hc2⟩
    have hcongr : dedupFirst (visitLogMetadata h st e.desc).seen
        (psetStream h e.properties) =
        dedupFirst (st.seen ++ metaStream h e.desc) (psetStream h e.properties) := by
      refine dedupFirst_congr _ _ _ ?_
      intro x
      rw [hm1 x, List.mem_append]
    refine ⟨?_, ?_, hc2⟩
    · show (visitPropertySet h (visitLogMetadata h st e.desc) e.properties).deps = _
      rw [hd2, hd1, hcongr]
      show _ = st.deps ++
        (dedupFirst st.seen (metaStream h e.desc ++ psetStream h e.properties)).map recOf
      rw [dedupFirst_append]
      simp [List.append_assoc]
    · intro x
      show x ∈ (visitPropertySet h (visitLogMetadata h st e.desc) e.properties).seen ↔ _
      rw [hm2 x, hm1 x]
      show _ ↔ x ∈ st.seen ∨ x ∈ metaStream h e.desc ++ psetStream h e.properties
      rw [List.mem_append]
      tauto
  | interop e =>
    have hvs : visitString st e.target.ptr = visitStrings st [e.target.ptr] := rfl
    rcases visitStrings_spec [e.target.ptr] st with ⟨hd1, hm1⟩
    have hc1 : closedSeen h (visitString st e.target.ptr).seen := by
      refine closedSeen_extend_str h st.seen _ e.target.ptr hc ?_
      intro x
      rw [hvs, hm1 x]
      simp
    rcases visitPropertySet_spec h (visitString st e.target.ptr) e.properties hc1
      with ⟨hd2, hm2, hc2⟩
    have hcongr : dedupFirst (visitString st e.target.ptr).seen
        (psetStream h e.properties) =
        dedupFirst (st.seen ++ [Identity.str e.target.ptr])
          (psetStream h e.properties) := by
      refine dedupFirst_congr _ _ _ ?_
      intro x
      rw [hvs, hm1 x]
      simp [List.mem_append]
    refine ⟨?_, ?_, hc2⟩
    · show (visitPropertySet h (visitString st e.target.ptr) e.properties).deps = _
      rw [hd2, hcongr, hvs, hd1]
      show _ = st.deps ++ (dedupFirst st.seen
        (Identity.str e.target.ptr :: psetStream h e.properties)).map recOf
      rw [show Identity.str e.target.ptr :: psetStream h e.properties =
        [Identity.str e.target.ptr] ++ psetStream h e.properties from rfl]
      rw [dedupFirst_append]
      simp [List.append_assoc]
    · intro x
      show x ∈ (visitPropertySet h (visitString st e.target.ptr) e.properties).seen ↔ _
      rw [hm2 x, hvs, hm1 x]
      show _ ↔ x ∈ st.seen ∨ x ∈ Identity.str e.target.ptr :: psetStream h e.properties
      simp only [List.mem_cons, List.map_cons, List.map_nil, List.mem_singleton]
      tauto
  | staticStr s =>
    have hvs : visitEvent h st (.staticStr s) = visitStrings st [s.ptr] := rfl
    rcases visitStrings_spec [s.ptr] st with ⟨hd1, hm1⟩
    have hc1 : closedSeen h (visitStrings st [s.ptr]).seen := by
      refine closedSeen_extend_str h st.seen _ s.ptr hc ?_
      intro x
      rw [hm1 x]
      simp
    refine ⟨?_, ?_, by rw [hvs]; exact hc1⟩
    · rw [hvs, hd1]
      rfl
    · intro x
      rw [hvs, hm1 x]
      show _ ↔ x ∈ st.seen ∨ x ∈ [Identity.str s.ptr]
      simp

theorem visitEvents_spec (h : Heap) (evs : List LogEvent) (st : ExtractState)
    (hc : closedSeen h st.seen) :
    (evs.foldl (visitEvent h) st).deps =
      st.deps ++ (dedupFirst st.seen (blockStream h evs)).map recOf ∧
    (∀ x, x ∈ (evs.foldl (visitEvent h) st).seen ↔
      x ∈ st.seen ∨ x ∈ blockStream h evs) ∧
    closedSeen h (evs.foldl (visitEvent h) st).seen := by
  induction evs generalizing st with
  | nil =>
    refine ⟨by simp [blockStream, dedupFirst], ?_, by simpa using hc⟩
    intro x
    simp [blockStream]
  | cons e evs ih =>
    rcases visitEvent_spec h st e hc with ⟨hd1, hm1, hc1⟩
    rcases ih (visitEvent h st e) hc1 with ⟨ihd, ihm, ihc⟩
    have hcongr : dedupFirst (visitEvent h st e).seen (blockStream h evs) =
        dedupFirst (st.seen ++ eventStream h e) (blockStream h evs) := by
      refine dedupFirst_congr _ _ _ ?_
      intro x
      rw [hm1 x, List.mem_append]
    refine ⟨?_, ?_, by simpa using ihc⟩
    · show (evs.foldl (visitEvent h) (visitEvent h st e)).deps = _
      rw [ihd, hd1, hcongr]
      show _ = st.deps ++
        (dedupFirst st.seen (eventStream h e ++ blockStream h evs)).map recOf
      rw [dedupFirst_append]
      simp [List.append_assoc]
    · intro x
      show x ∈ (evs.foldl (visitEvent h) (visitEvent h st e)).seen ↔ _
      rw [ihm x, hm1 x]
      show _ ↔ x ∈ st.seen ∨ x ∈ eventStream h e ++ blockStream h evs
      rw [List.mem_append]
      tauto

theorem closedSeen_nil (h : Heap) : closedSeen h [] := by
  constructor
  · intro m hm
    simp at hm
  · intro p hp
    simp at hp

theorem recOf_injective : Function.Injective recOf := by
  intro a b hab
  cases a <;> cases b <;> simp [recOf] at hab <;> simp [hab]

theorem depId_recOf (x : Identity) : depId (recOf x) = x := by
  cases x <;> rfl

theorem recOf_depId (r : DepRecord) : recOf (depId r) = r := by
  cases r <;> rfl

theorem blockStream_append (h : Heap) (l1 l2 : List LogEvent) :
    blockStream h (l1 ++ l2) = blockStream h l1 ++ blockStream h l2 := by
  induction l1 with
  | nil => rfl
  | cons e rest ih => simp [blockStream, ih, List.append_assoc]

/-- C2: over any sealed block, the dependency extractor emits exactly the
distinct referenced identities — its queue is the first-occurrence dedup of
the full reference stream (so the records appear in discovery order of the
extraction walk), no identity is recorded twice, a record exists exactly for
the referenced identities, and an appended event all of whose references
were already seen contributes zero additional records. -/
theorem dependency_dedup (h : Heap) (evs : List LogEvent) :
    (extractLogDependencies h evs).deps =
      (dedupFirst [] (blockStream h evs)).map recOf ∧
    (extractLogDependencies h evs).deps.Nodup ∧
    (∀ r : DepRecord, r ∈ (extractLogDependencies h evs).deps ↔
      depId r ∈ blockStream h evs) ∧
    (∀ e : LogEvent, (∀ x ∈ eventStream h e, x ∈ blockStream h evs) →
      (extractLogDependencies h (evs ++ [e])).deps =
        (extractLogDependencies h evs).deps) := by
  have hdeps : (extractLogDependencies h evs).deps =
      (dedupFirst [] (blockStream h evs)).map recOf := by
    have := (visitEvents_spec h evs ⟨[], []⟩ (closedSeen_nil h)).1
    simpa [extractLogDependencies] using this
  refine ⟨hdeps, ?_, ?_, ?_⟩
  · rw [hdeps]
    exact (dedupFirst_nodup [] _).map recOf_injective
  · intro r
    rw [hdeps, List.mem_map]
    constructor
    · rintro ⟨x, hx, rfl⟩
      rw [depId_recOf]
      exact ((mem_dedupFirst _ _ _).mp hx).2
    · intro hr
      refine ⟨depId r, ?_, recOf_depId r⟩
      exact (mem_dedupFirst _ _ _).mpr ⟨by simp, hr⟩
  · intro e hsub
    have hdeps2 : (extractLogDependencies h (evs ++ [e])).deps =
        (dedupFirst [] (blockStream h (evs ++ [e]))).map recOf := by
      have := (visitEvents_spec h (evs ++ [e]) ⟨[], []⟩ (closedSeen_nil h)).1
      simpa [extractLogDependencies] using this
    have hnil : dedupFirst ([] ++ blockStream h evs) (blockStream h [e]) = [] := by
      refine dedupFirst_nil_of_subset _ _ ?_
      intro x hx
      have hx2 : x ∈ eventStream h e := by
        simpa [blockStream] using hx
      simpa using hsub x hx2
    rw [hdeps2, hdeps, blockStream_append, dedupFirst_append, hnil]
    simp

/-- Witness for C2: an extra event whose only reference (string 10, the
target of descriptor 1) is already recorded adds no record. -/
theorem dependency_dedup_witness :
    (∀ x ∈ eventStream ⟨fun _ => 10, fun _ => 11, fun _ => 12, fun _ => [(5, 6)]⟩
        (LogEvent.staticStr ⟨10, 0, 0⟩),
      x ∈ blockStream ⟨fun _ => 10, fun _ => 11, fun _ => 12, fun _ => [(5, 6)]⟩
        [LogEvent.tagged ⟨1, 2, 0, ⟨0, []⟩⟩]) ∧
    (extractLogDependencies ⟨fun _ => 10, fun _ => 11, fun _ => 12, fun _ => [(5, 6)]⟩
        ([LogEvent.tagged ⟨1, 2, 0, ⟨0, []⟩⟩] ++ [LogEvent.staticStr ⟨10, 0, 0⟩])).deps =
      (extractLogDependencies ⟨fun _ => 10, fun _ => 11, fun _ => 12, fun _ => [(5, 6)]⟩
        [LogEvent.tagged ⟨1, 2, 0, ⟨0, []⟩⟩]).deps :=
  ⟨by decide,
    (dependency_dedup ⟨fun _ => 10, fun _ => 11, fun _ => 12, fun _ => [(5, 6)]⟩
      [LogEvent.tagged ⟨1, 2, 0, ⟨0, []⟩⟩]).2.2.2
      (LogEvent.staticStr ⟨10, 0, 0⟩) (by decide)⟩

/-! ## Topological order of the dependency queue -/

/-- String ids recorded by one dependency record. -/
def strIdsOf : DepRecord → List Nat
  | .staticString s => [s]
  | .logMetadata _ => []
  | .propertySet _ => []

/-- String ids recorded by a queue, in order. -/
def strIds : List DepRecord → List Nat
  | [] => []
  | r :: rest => strIdsOf r ++ strIds rest

/-- String identities a record's object references (and which a consumer
needs resolved before it replays the record). -/
def recordRefs (h : Heap) : DepRecord → List Nat
  | .staticString _ => []
  | .logMetadata m => metaRefs h m
  | .propertySet p => psetRefs h p

/-- The queue is topologically ordered relative to the string ids already
recorded before it: every record's referenced strings are recorded strictly
earlier. -/
def topoFrom (h : Heap) (recorded : List Nat) : List DepRecord → Prop
  | [] => True
  | r :: rest =>
    (∀ s ∈ recordRefs h r, s ∈ recorded) ∧
      topoFrom h (recorded ++ strIdsOf r) rest

theorem strIds_append (l1 l2 : List DepRecord) :
    strIds (l1 ++ l2) = strIds l1 ++ strIds l2 := by
  induction l1 with
  | nil => rfl
  | cons r rest ih => simp [strIds, ih, List.append_assoc]

theorem topoFrom_append (h : Heap) (recorded : List Nat) (l : List DepRecord)
    (r : DepRecord) :
    topoFrom h recorded (l ++ [r]) ↔
      topoFrom h recorded l ∧ ∀ s ∈ recordRefs h r, s ∈ recorded ++ strIds l := by
  induction l generalizing recorded with
  | nil => simp [topoFrom, strIds]
  | cons x xs ih =>
    rw [List.cons_append]
    show ((∀ s ∈ recordRefs h x, s ∈ recorded) ∧
        topoFrom h (recorded ++ strIdsOf x) (xs ++ [r])) ↔ _
    rw [ih (recorded ++ strIdsOf x)]
    show _ ↔ ((∀ s ∈ recordRefs h x, s ∈ recorded) ∧
        topoFrom h (recorded ++ strIdsOf x) xs) ∧
      ∀ s ∈ recordRefs h r, s ∈ recorded ++ (strIdsOf x ++ strIds xs)
    rw [← List.append_assoc]
    tauto

/-- The extractor invariant for topological ordering: the queue so far is
topologically ordered, and every string marked seen already has its record
in the queue. -/
def depsInv (h : Heap) (st : ExtractState) : Prop :=
  topoFrom h [] st.deps ∧
  ∀ s, Identity.str s ∈ st.seen → s ∈ strIds st.deps

theorem visitString_depsInv (h : Heap) (st : ExtractState) (a : Nat)
    (hi : depsInv h st) : depsInv h (visitString st a) := by
  by_cases ha : Identity.str a ∈ st.seen
  · simpa [visitString, ha] using hi
  · have hv : visitString st a =
        ⟨st.seen ++ [.str a], st.deps ++ [.staticString a]⟩ := by
      simp [visitString, ha]
    rw [hv]
    constructor
    · rw [topoFrom_append]
      exact ⟨hi.1, by simp [recordRefs]⟩
    · intro s hs
      rw [strIds_append]
      rcases List.mem_append.mp hs with hs | hs
      · exact List.mem_append.mpr (Or.inl (hi.2 s hs))
      · rcases List.mem_singleton.mp hs with hs
        have : s = a := by simpa using hs
        subst this
        simp [strIds, strIdsOf]

theorem visitStrings_depsInv (h : Heap) (ids : List Nat) (st : ExtractState)
    (hi : depsInv h st) : depsInv h (visitStrings st ids) := by
  induction ids generalizing st with
  | nil => exact hi
  | cons a ids ih => exact ih (visitString st a) (visitString_depsInv h st a hi)

theorem visitLogMetadata_depsInv (h : Heap) (st : ExtractState) (m : Nat)
    (hi : depsInv h st) : depsInv h (visitLogMetadata h st m) := by
  by_cases hm : Identity.meta m ∈ st.seen
  · simpa [visitLogMetadata, hm] using hi
  · have hv : visitLogMetadata h st m =
        ⟨(visitStrings ⟨st.seen ++ [.meta m], st.deps⟩ (metaRefs h m)).seen,
          (visitStrings ⟨st.seen ++ [.meta m], st.deps⟩ (metaRefs h m)).deps
            ++ [.logMetadata m]⟩ := by
      simp only [visitLogMetadata]
      rw [if_neg hm]
    have hi1 : depsInv h ⟨st.seen ++ [.meta m], st.deps⟩ := by
      refine ⟨hi.1, ?_⟩
      intro s hs
      rcases List.mem_append.mp hs with hs | hs
      · exact hi.2 s hs
      · have := List.mem_singleton.mp hs
        simp at this
    have hi2 := visitStrings_depsInv h (metaRefs h m) _ hi1
    rcases visitStrings_spec (metaRefs h m) ⟨st.seen ++ [.meta m], st.deps⟩
      with ⟨_, hmems⟩
    rw [hv]
    constructor
    · rw [topoFrom_append]
      refine ⟨hi2.1, ?_⟩
      intro s hs
      have hseen : Identity.str s ∈
          (visitStrings ⟨st.seen ++ [.meta m], st.deps⟩ (metaRefs h m)).seen :=
        (hmems _).mpr (Or.inr (List.mem_map.mpr ⟨s, hs, rfl⟩))
      have := hi2.2 s hseen
      simpa using this
    · intro s hs
      rw [strIds_append]
      exact List.mem_append.mpr (Or.inl (hi2.2 s hs))

theorem visitPropertySet_depsInv (h : Heap) (st : ExtractState) (p : Nat)
    (hi : depsInv h st) : depsInv h (visitPropertySet h st p) := by
  by_cases hp : Identity.pset p ∈ st.seen
  · simpa [visitPropertySet, hp] using hi
  · have hv : visitPropertySet h st p =
        ⟨(visitStrings ⟨st.seen ++ [.pset p], st.deps⟩ (psetRefs h p)).seen,
          (visitStrings ⟨st.seen ++ [.pset p], st.deps⟩ (psetRefs h p)).deps
            ++ [.propertySet p]⟩ := by
      simp only [visitPropertySet]
      rw [if_neg hp, foldl_pairs_eq_visitStrings]
      rfl
    have hi1 : depsInv h ⟨st.seen ++ [.pset p], st.deps⟩ := by
      refine ⟨hi.1, ?_⟩
      intro s hs
      rcases List.mem_append.mp hs with hs | hs
      · exact hi.2 s hs
      · have := List.mem_singleton.mp hs
        simp at this
    have hi2 := visitStrings_depsInv h (psetRefs h p) _ hi1
    rcases visitStrings_spec (psetRefs h p) ⟨st.seen ++ [.pset p], st.deps⟩
      with ⟨_, hmems⟩
    rw [hv]
    constructor
    · rw [topoFrom_append]
      refine ⟨hi2.1, ?_⟩
      intro s hs
      have hseen : Identity.str s ∈
          (visitStrings ⟨st.seen ++ [.pset p], st.deps⟩ (psetRefs h p)).seen :=
        (hmems _).mpr (Or.inr (List.mem_map.mpr ⟨s, hs, rfl⟩))
      have := hi2.2 s hseen
      simpa using this
    · intro s hs
      rw [strIds_append]
      exact List.mem_append.mpr (Or.inl (hi2.2 s hs))

theorem visitEvent_depsInv (h : Heap) (st : ExtractState) (e : LogEvent)
    (hi : depsInv h st) : depsInv h (visitEvent h st e) := by
  cases e with
  | tagged e =>
    exact visitPropertySet_depsInv h _ e.properties
      (visitLogMetadata_depsInv h st e.desc hi)
  | interop e =>
    exact visitPropertySet_depsInv h _ e.properties
      (visitString_depsInv h st e.target.ptr hi)
  | staticStr s =>
    exact visitString_depsInv h st s.ptr hi

/-- C7: the dependency queue produced for a sealed block is topologically
ordered — for every recorded descriptor or property set, the static-string
records of all the strings it references appear strictly earlier in the
queue, so a consumer replaying dependencies in order resolves every
reference before it is needed; the extractor guarantees it by extracting a
newly discovered object's own references before appending that object's
record. -/
theorem dependency_topological_order (h : Heap) (evs : List LogEvent) :
    topoFrom h [] (extractLogDependencies h evs).deps := by
  suffices hstep : ∀ st : ExtractState, depsInv h st →
      depsInv h (evs.foldl (visitEvent h) st) by
    exact (hstep ⟨[], []⟩ ⟨trivial, by intro s hs; simp at hs⟩).1
  intro st0 hst0
  induction evs generalizing st0 with
  | nil => exact hst0
  | cons e evs ih => exact ih _ (visitEvent_depsInv h st0 e hst0)

/-! ## Global dispatch lifecycle (`Dispatch.cpp`)

`GDispatch` is the global singleton pointer; the calling thread's
`thread_local ThreadStream* Ptr` and `thread_local bool ThisStreamBeingInit`
are part of the world, as is the sequence of sink calls made so far. Event
payloads are abstracted to their serialized sizes as in the stream model. -/

inductive SinkCall where
  | onStartup
  | onInitLogStream
  | onInitMetricStream
  | onInitThreadStream
  | onProcessLogBlock (b : BlockModel)
  | onProcessMetricBlock (b : BlockModel)
  | onProcessThreadBlock (b : BlockModel)
  | onShutdown
deriving DecidableEq

/-- `LogStream = EventStreamImpl<LogBlock, 1024>` (`Fwd.h`). -/
def logPad : Nat := 1024

/-- `MetricStream = EventStreamImpl<MetricBlock, 128>` (`Fwd.h`). -/
def metricPad : Nat := 128

/-- `ThreadStream = EventStreamImpl<ThreadBlock, 128>` (`Fwd.h`). -/
def threadPad : Nat := 128

structure DispatchModel where
  logStream : StreamModel
  metricStream : StreamModel
  logBufferSize : Nat
  metricBufferSize : Nat
  threadBufferSize : Nat
deriving DecidableEq

structure World where
  gdispatch : Option DispatchModel
  threadPtr : Option StreamModel
  threadBeingInit : Bool
  sinkCalls : List SinkCall
deriving DecidableEq

def sinkOf (f : BlockModel → SinkCall) : Option BlockModel → List SinkCall
  | none => []
  | some b => [f b]

/-- `Dispatch::Init`: if `GDispatch` is already set, return (first call
wins); otherwise construct the dispatch (log and metric streams with fresh
blocks at offset 0) and notify the sink. -/
def dispatchInit (logBS metricBS threadBS : Nat) (w : World) : World :=
  match w.gdispatch with
  | some _ => w
  | none =>
    { w with
      gdispatch := some ⟨mkStream logPad (mkBlock logBS 0),
        mkStream metricPad (mkBlock metricBS 0), logBS, metricBS, threadBS⟩,
      sinkCalls := w.sinkCalls ++
        [.onStartup, .onInitLogStream, .onInitMetricStream] }

/-- `Dispatch::Shutdown`: null `GDispatch` check, notify the sink, clear the
global. -/
def dispatchShutdown (w : World) : World :=
  match w.gdispatch with
  | none => w
  | some _ =>
    { w with gdispatch := none, sinkCalls := w.sinkCalls ++ [.onShutdown] }

/-- `Dispatch::Log` (and the overload with explicit properties): null
check, then `QueueLogEntry`. -/
def dispatchLog (sz : Nat) (w : World) : World :=
  match w.gdispatch with
  | none => w
  | some d =>
    let r := queueEntry d.logBufferSize logPad d.logStream sz
    { w with gdispatch := some { d with logStream := r.1 },
             sinkCalls := w.sinkCalls ++ sinkOf .onProcessLogBlock r.2 }

/-- `Dispatch::LogInterop`: null check, then `QueueLogEntry`. -/
def dispatchLogInterop (sz : Nat) (w : World) : World :=
  match w.gdispatch with
  | none => w
  | some d =>
    let r := queueEntry d.logBufferSize logPad d.logStream sz
    { w with gdispatch := some { d with logStream := r.1 },
             sinkCalls := w.sinkCalls ++ sinkOf .onProcessLogBlock r.2 }

/-- `Dispatch::IntMetric`: null check, then `QueueMetric`. -/
def dispatchIntMetric (sz : Nat) (w : World) : World :=
  match w.gdispatch with
  | none => w
  | some d =>
    let r := queueEntry d.metricBufferSize metricPad d.metricStream sz
    { w with gdispatch := some { d with metricStream := r.1 },
             sinkCalls := w.sinkCalls ++ sinkOf .onProcessMetricBlock r.2 }

/-- `Dispatch::FloatMetric`: null check, then `QueueMetric`. -/
def dispatchFloatMetric (sz : Nat) (w : World) : World :=
  match w.gdispatch with
  | none => w
  | some d =>
    let r := queueEntry d.metricBufferSize metricPad d.metricStream sz
    { w with gdispatch := some { d with metricStream := r.1 },
             sinkCalls := w.sinkCalls ++ sinkOf .onProcessMetricBlock r.2 }

/-- `Dispatch::FlushLogStream`: null check, then `FlushLogStreamImpl`. -/
def dispatchFlushLogStream (w : World) : World :=
  match w.gdispatch with
  | none => w
  | some d =>
    let r := flushStreamImpl d.logBufferSize logPad d.logStream
    { w with gdispatch := some { d with logStream := r.1 },
             sinkCalls := w.sinkCalls ++ sinkOf .onProcessLogBlock r.2 }

/-- `Dispatch::FlushMetricStream`: null check, then `FlushMetricStreamImpl`. -/
def dispatchFlushMetricStream (w : World) : World :=
  match w.gdispatch with
  | none => w
  | some d =>
    let r := flushStreamImpl d.metricBufferSize metricPad d.metricStream
    { w with gdispatch := some { d with metricStream := r.1 },
             sinkCalls := w.sinkCalls ++ sinkOf .onProcessMetricBlock r.2 }

/-- `Dispatch::GetCurrentThreadStream`: return the cached thread-local
stream if set; return null when `GDispatch` is null or when this thread is
already inside stream creation (`ThisStreamBeingInit`); otherwise create,
publish (sink `OnInitThreadStream`) and cache a fresh stream. -/
def getCurrentThreadStream (w : World) : World × Option StreamModel :=
  match w.threadPtr with
  | some s => (w, some s)
  | none =>
    match w.gdispatch with
    | none => (w, none)
    | some d =>
      if w.threadBeingInit then (w, none)
      else
        let ns := mkStream threadPad (mkBlock d.threadBufferSize 0)
        ({ w with
            threadPtr := some ns
            threadBeingInit := true
            sinkCalls := w.sinkCalls ++ [.onInitThreadStream] }, some ns)

/-- `Dispatch::QueueThreadEvent`: push into the calling thread's stream if
it exists (dropping the event otherwise); on fullness, re-check `GDispatch`
and flush the thread stream through the sink. -/
def queueThreadEvent (sz : Nat) (w : World) : World :=
  let got := getCurrentThreadStream w
  match got.2 with
  | none => got.1
  | some s =>
    let s1 := streamPush s sz
    let w2 := { got.1 with threadPtr := some s1 }
    if streamIsFull s1 then
      match w2.gdispatch with
      | none => w2
      | some d =>
        let r := flushStreamImpl d.threadBufferSize threadPad s1
        { w2 with
            threadPtr := some r.1
            sinkCalls := w2.sinkCalls ++ sinkOf .onProcessThreadBlock r.2 }
    else w2

/-- `Dispatch::BeginScope`. -/
def dispatchBeginScope (sz : Nat) (w : World) : World :=
  queueThreadEvent sz w

/-- `Dispatch::EndScope`. -/
def dispatchEndScope (sz : Nat) (w : World) : World :=
  queueThreadEvent sz w

/-- C6 counterexample: span emission is not always a no-op when the global
dispatch state is uninitialized. After `Shutdown` (`GDispatch == nullptr`) a
thread whose thread-local stream already exists still pushes the span event
into that stream (`GetCurrentThreadStream` returns the cached pointer before
checking `GDispatch`), so `BeginScope` changes state. -/
theorem uninitialized_noop_counterexample :
    dispatchBeginScope 1
        ⟨none, some (mkStream threadPad (mkBlock 100 0)), true, []⟩ ≠
      ⟨none, some (mkStream threadPad (mkBlock 100 0)), true, []⟩ := by
  decide

/-- C6 (amended): whenever the global dispatch state is uninitialized
(`Init` not yet called, or `Shutdown` already called), every log and metric
emission and flush call (`Log`, `LogInterop`, `IntMetric`, `FloatMetric`,
`FlushLogStream`, `FlushMetricStream`), and `Shutdown` itself, is a silent
no-op that changes no state and signals no error; span begin/end are silent
no-ops provided the calling thread has no cached thread stream (a stream
created before `Shutdown` still buffers span events); and a second `Init`
call is a no-op with the first call's state winning. -/
theorem uninitialized_noop (w : World) (sz logBS metricBS threadBS : Nat)
    (d : DispatchModel) :
    (w.gdispatch = none →
      dispatchLog sz w = w ∧ dispatchLogInterop sz w = w ∧
      dispatchIntMetric sz w = w ∧ dispatchFloatMetric sz w = w ∧
      dispatchFlushLogStream w = w ∧ dispatchFlushMetricStream w = w ∧
      dispatchShutdown w = w ∧
      (w.threadPtr = none →
        dispatchBeginScope sz w = w ∧ dispatchEndScope sz w = w)) ∧
    (w.gdispatch = some d → dispatchInit logBS metricBS threadBS w = w) := by
  constructor
  · intro hg
    have hthread : w.threadPtr = none → queueThreadEvent sz w = w := by
      intro hp
      simp [queueThreadEvent, getCurrentThreadStream, hp, hg]
    refine ⟨?_, ?_, ?_, ?_, ?_, ?_, ?_, fun hp => ⟨hthread hp, hthread hp⟩⟩
    · simp [dispatchLog, hg]
    · simp [dispatchLogInterop, hg]
    · simp [dispatchIntMetric, hg]
    · simp [dispatchFloatMetric, hg]
    · simp [dispatchFlushLogStream, hg]
    · simp [dispatchFlushMetricStream, hg]
    · simp [dispatchShutdown, hg]
  · intro hg
    simp [dispatchInit, hg]

/-- Witness for C6: no-ops at a fresh uninitialized world, and double-`Init`
keeping the first state. -/
theorem uninitialized_noop_witness :
    ((⟨none, none, false, []⟩ : World).gdispatch = none ∧
      dispatchLog 1 ⟨none, none, false, []⟩ = ⟨none, none, false, []⟩ ∧
      dispatchBeginScope 1 ⟨none, none, false, []⟩ = ⟨none, none, false, []⟩) ∧
    dispatchInit 7 8 9 (dispatchInit 10 20 30 ⟨none, none, false, []⟩) =
      dispatchInit 10 20 30 ⟨none, none, false, []⟩ :=
  ⟨⟨rfl,
    ((uninitialized_noop ⟨none, none, false, []⟩ 1 7 8 9
      ⟨mkStream logPad (mkBlock 10 0), mkStream metricPad (mkBlock 20 0),
        10, 20, 30⟩).1 rfl).1,
    (((uninitialized_noop ⟨none, none, false, []⟩ 1 7 8 9
      ⟨mkStream logPad (mkBlock 10 0), mkStream metricPad (mkBlock 20 0),
        10, 20, 30⟩).1 rfl).2.2.2.2.2.2.2 rfl).1⟩,
    (uninitialized_noop (dispatchInit 10 20 30 ⟨none, none, false, []⟩) 1 7 8 9
      ⟨mkStream logPad (mkBlock 10 0), mkStream metricPad (mkBlock 20 0),
        10, 20, 30⟩).2 rfl⟩

/-- C10: thread-stream creation is guarded against re-entrancy. During
creation (`ThisStreamBeingInit` set, pointer not yet published) a nested
`GetCurrentThreadStream` on the same thread returns null leaving the world
unchanged, and the nested span event is silently dropped rather than
recursing; a first call with the guard clear creates and caches the stream;
and once the cached pointer is set every later call returns that same
stream instance with no state change. -/
theorem thread_stream_reentrancy (w : World) (sz : Nat) (d : DispatchModel)
    (s : StreamModel) :
    (w.gdispatch = some d → w.threadPtr = none → w.threadBeingInit = true →
      getCurrentThreadStream w = (w, none) ∧ queueThreadEvent sz w = w) ∧
    (w.gdispatch = some d → w.threadPtr = none → w.threadBeingInit = false →
      (getCurrentThreadStream w).2 =
        some (mkStream threadPad (mkBlock d.threadBufferSize 0)) ∧
      (getCurrentThreadStream w).1.threadPtr =
        some (mkStream threadPad (mkBlock d.threadBufferSize 0))) ∧
    (w.threadPtr = some s → getCurrentThreadStream w = (w, some s)) := by
  refine ⟨?_, ?_, ?_⟩
  · intro hg hp hb
    have hget : getCurrentThreadStream w = (w, none) := by
      simp [getCurrentThreadStream, hp, hg, hb]
    exact ⟨hget, by simp [queueThreadEvent, hget]⟩
  · intro hg hp hb
    constructor
    · simp [getCurrentThreadStream, hp, hg, hb]
    · simp [getCurrentThreadStream, hp, hg, hb]
  · intro hp
    simp [getCurrentThreadStream, hp]

/-- Witness for C10: a concrete mid-creation world drops the nested event;
a concrete cached world returns the cached stream. -/
theorem thread_stream_reentrancy_witness :
    ((⟨some ⟨mkStream logPad (mkBlock 10 0), mkStream metricPad (mkBlock 20 0),
          10, 20, 30⟩, none, true, []⟩ : World).gdispatch =
        some ⟨mkStream logPad (mkBlock 10 0), mkStream metricPad (mkBlock 20 0),
          10, 20, 30⟩ ∧
      queueThreadEvent 1
        ⟨some ⟨mkStream logPad (mkBlock 10 0), mkStream metricPad (mkBlock 20 0),
          10, 20, 30⟩, none, true, []⟩ =
        ⟨some ⟨mkStream logPad (mkBlock 10 0), mkStream metricPad (mkBlock 20 0),
          10, 20, 30⟩, none, true, []⟩) ∧
    getCurrentThreadStream
        ⟨none, some (mkStream threadPad (mkBlock 30 0)), true, []⟩ =
      (⟨none, some (mkStream threadPad (mkBlock 30 0)), true, []⟩,
        some (mkStream threadPad (mkBlock 30 0))) :=
  ⟨⟨rfl,
    ((thread_stream_reentrancy
      ⟨some ⟨mkStream logPad (mkBlock 10 0), mkStream metricPad (mkBlock 20 0),
        10, 20, 30⟩, none, true, []⟩ 1
      ⟨mkStream logPad (mkBlock 10 0), mkStream metricPad (mkBlock 20 0),
        10, 20, 30⟩
      (mkStream threadPad (mkBlock 30 0))).1 rfl rfl rfl).2⟩,
    (thread_stream_reentrancy
      ⟨none, some (mkStream threadPad (mkBlock 30 0)), true, []⟩ 1
      ⟨mkStream logPad (mkBlock 10 0), mkStream metricPad (mkBlock 20 0),
        10, 20, 30⟩
      (mkStream threadPad (mkBlock 30 0))).2.2 rfl⟩

end Micromegas
